import Mathlib

/-!
Verification development for the pysm_epaint colour-model core
(`rgbh.py`, `vpaint.py`, `pchar.py`).

The embedding mirrors the Python source:
* machine arithmetic on channel values is modelled over `ℚ` (the fixed
  8/16-bit precisions round with Python's `int(x + 0.5)`, the proportional
  precision does not round);
* the trigonometric colour-wheel geometry (`Cartesian`, `HueNG`,
  `RGBManipulator`) is modelled over `ℝ` with `Real.sin`/`Real.cos` and
  `Complex.arg` playing the role of `math.atan2`;
* Python code that can raise (`assert`, `ZeroDivisionError`, attribute
  errors) is modelled with `Option`/`Except`: `none`/`error` means the call
  raises and the mutable receiver is left unchanged.
-/

set_option maxHeartbeats 1600000

namespace EPaint

/-! ## Channel precisions (rgbh.py: BPC8 / BPC16 / PROPN_CHANNELS) -/

/-- Python's `int()` applied to a rational: truncation toward zero. -/
def pytruncQ (x : ℚ) : ℤ := if x < 0 then ⌈x⌉ else ⌊x⌋

/-- The three channel precisions of `rgbh.py`: 8 bits per channel (`BPC8`),
16 bits per channel (`BPC16`) and real-valued proportions
(`PROPN_CHANNELS`). -/
inductive Prec
  | p8
  | p16
  | ppn
deriving DecidableEq

/-- The `ONE` constant of each precision: `(1 << bits) - 1` for the fixed
precisions and `1.0` for proportions. -/
def Prec.one : Prec → ℚ
  | .p8 => 255
  | .p16 => 65535
  | .ppn => 1

/-- The `ROUND` classmethod of each precision: `int(x + 0.5)` for the fixed
precisions, the identity (`float(x)`) for proportions. -/
def Prec.rnd : Prec → ℚ → ℚ
  | .p8, x => (pytruncQ (x + 1 / 2) : ℚ)
  | .p16, x => (pytruncQ (x + 1 / 2) : ℚ)
  | .ppn, x => x

/-- An RGB triple with rational channel values (`RGBNG` wrapper of
`rgbh.py`, used at a stated precision). -/
structure RGBQ where
  red : ℚ
  green : ℚ
  blue : ℚ
deriving DecidableEq

/-- One channel of `RGBNG.converted_to`'s else-branch:
`rgbt.ROUND((component * rgbt.ONE) / self.ONE)`. -/
def convChannel (p q : Prec) (c : ℚ) : ℚ := q.rnd (c * q.one / p.one)

/-- `RGBNG.converted_to` (rgbh.py lines 145-149): identity when the target
precision has the same `ONE`, otherwise scale-and-round each channel. -/
def convertedTo (p q : Prec) (c : RGBQ) : RGBQ :=
  if q.one = p.one then c
  else ⟨convChannel p q c.red, convChannel p q c.green, convChannel p q c.blue⟩

/-- A channel value representable at precision `p`: a natural number up to
`ONE` for the fixed precisions, a rational in `[0, 1]` for proportions. -/
def chnlRepresentable (p : Prec) (c : ℚ) : Prop :=
  match p with
  | .ppn => 0 ≤ c ∧ c ≤ 1
  | _ => ∃ n : ℕ, (n : ℚ) ≤ p.one ∧ c = n

/-- All three channels of a triple representable at precision `p`. -/
def rgbRepresentable (p : Prec) (c : RGBQ) : Prop :=
  chnlRepresentable p c.red ∧ chnlRepresentable p c.green ∧ chnlRepresentable p c.blue

/-- Round-trip tolerance per channel, in units of the start precision `p`:
the round trip through a fixed precision `q` is accurate to one `q`-grid
step, i.e. `p.one / q.one`; through the proportional precision it is exact. -/
def rtTol (p q : Prec) : ℚ :=
  match q with
  | .ppn => 0
  | _ => p.one / q.one

/-! ## RGB16 arithmetic used by Mixture (rgbh.py RGBNG ops at BPC16) -/

/-- `RGB16.ROUND`, i.e. `int(x + 0.5)` on a rational. -/
def round16 (x : ℚ) : ℚ := (pytruncQ (x + 1 / 2) : ℚ)

/-- `RGBNG.__mul__` at 16-bit precision: each channel is
`ROUND(component * mul)`; the multiplier is a (parts) integer. -/
def rgbMulZ (c : RGBQ) (m : ℤ) : RGBQ :=
  ⟨round16 (c.red * m), round16 (c.green * m), round16 (c.blue * m)⟩

/-- `RGBNG.__add__`: componentwise addition (no rounding). -/
def rgbAdd (a b : RGBQ) : RGBQ := ⟨a.red + b.red, a.green + b.green, a.blue + b.blue⟩

/-- `RGBNG.__truediv__` at 16-bit precision: each channel is
`ROUND(component / div)`. -/
def rgbDivZ (c : RGBQ) (d : ℤ) : RGBQ :=
  ⟨round16 (c.red / d), round16 (c.green / d), round16 (c.blue / d)⟩

/-- `RGB16.get_value` (rgbh.py lines 265-266): `Fraction(sum(self), THREE)`
with `THREE = 3 * 65535 = 196605`. -/
def getValue16 (c : RGBQ) : ℚ := (c.red + c.green + c.blue) / 196605

/-- `RGB16.RED`: `(ONE, ZERO, ZERO)`. -/
def red16 : RGBQ := ⟨65535, 0, 0⟩

/-- `RGB16.WHITE`: `(ONE, ONE, ONE)`. -/
def white16 : RGBQ := ⟨65535, 65535, 65535⟩

/-! ## Characteristics and Mixture (pchar.py, vpaint.py) -/

/-- The characteristics record of a `ModelPaint`
(`NAMES = ("transparency", "finish")`), each a `MappedFloat` raw value.
`MappedFloat` arithmetic never validates, so plain rationals suffice. -/
structure CharVals where
  transparency : ℚ
  finish : ℚ
deriving DecidableEq

/-- `Characteristics.__mul__` via `MappedFloat.__mul__`: scale every value. -/
def charMulZ (c : CharVals) (m : ℤ) : CharVals := ⟨c.transparency * m, c.finish * m⟩

/-- `Characteristics.__iadd__` via `MappedFloat.__iadd__`: add componentwise. -/
def charAdd (a b : CharVals) : CharVals := ⟨a.transparency + b.transparency, a.finish + b.finish⟩

/-- `Characteristics.__itruediv__` via `MappedFloat.__itruediv__`. -/
def charDivZ (c : CharVals) (d : ℤ) : CharVals := ⟨c.transparency / d, c.finish / d⟩

/-- A `BLOB` as consumed by `Mixture.__init__`: the blob's colour exposes a
16-bit rgb and a characteristics record, plus integer `parts`. -/
structure Blob where
  rgb : RGBQ
  chars : CharVals
  parts : ℤ
deriving DecidableEq

/-- The result of a successful `Mixture.__init__`: the blended rgb
(already divided by total parts) and blended characteristics. -/
structure MixResult where
  rgb : RGBQ
  characteristics : CharVals
deriving DecidableEq

/-- The accumulation loop of `Mixture.__init__` (vpaint.py lines 315-319):
starting from `parts = 0`, `rgb = BLACK`, default characteristics, add
`blob.parts`, `blob.colour.rgb * blob.parts` and
`blob.colour.characteristics * blob.parts` for each blob in order. -/
def mixtureFold (blobs : List Blob) : ℤ × RGBQ × CharVals :=
  blobs.foldl
    (fun acc b =>
      (acc.1 + b.parts, rgbAdd acc.2.1 (rgbMulZ b.rgb b.parts),
        charAdd acc.2.2 (charMulZ b.chars b.parts)))
    (0, ⟨0, 0, 0⟩, ⟨0, 0⟩)

/-- `Mixture.__init__` (vpaint.py lines 312-323): accumulate, then
`assert parts > 0, "Empty Mixture"`, then divide the rgb and the
characteristics by the total parts.  A failed assertion raises, modelled
as `Except.error`. -/
def mixture (blobs : List Blob) : Except String MixResult :=
  let acc := mixtureFold blobs
  if 0 < acc.1 then .ok ⟨rgbDivZ acc.2.1 acc.1, charDivZ acc.2.2 acc.1⟩
  else .error "Empty Mixture"

end EPaint

namespace EPaint

noncomputable section

open Real

/-! ## Real-valued geometry (rgbh.py: RGBPN, Cartesian, HueNG) -/

/-- An `RGBPN` triple: real-valued proportional channels. -/
structure RGBR where
  red : ℝ
  green : ℝ
  blue : ℝ

/-- `RGBPN.get_value`: `sum(self) / THREE` with `THREE = 3.0`. -/
def RGBR.value (c : RGBR) : ℝ := (c.red + c.green + c.blue) / 3

/-- `max(rgb)` over the three channels. -/
def RGBR.maxC (c : RGBR) : ℝ := max c.red (max c.green c.blue)

/-- `min(rgb)` over the three channels. -/
def RGBR.minC (c : RGBR) : ℝ := min c.red (min c.green c.blue)

/-- `RGBPN(*[c + delta for c in rgb])`: add the same grey delta to all
three channels (the proportional precision does not round). -/
def RGBR.addGrey (c : RGBR) (d : ℝ) : RGBR := ⟨c.red + d, c.green + d, c.blue + d⟩

/-- Componentwise scaling of a triple (used to state pure-hue facts). -/
def RGBR.smulC (t : ℝ) (c : RGBR) : RGBR := ⟨t * c.red, t * c.green, t * c.blue⟩

/-- Python's `int()` on a real: truncation toward zero. -/
def pyint (x : ℝ) : ℤ := if x < 0 then ⌈x⌉ else ⌊x⌋

/-- `int(x + 0.5)`: the fixed-precision `ROUND` on a real argument. -/
def pyround (x : ℝ) : ℤ := pyint (x + 1 / 2)

/-- `SIN_120 = math.sin(PI_120)`. -/
def SIN120 : ℝ := Real.sin (2 * π / 3)

/-- `COS_120 = -0.5` (the source uses the exact constant, not `math.cos`). -/
def COS120 : ℝ := -(1 / 2)

/-- `Cartesian.from_rgb`: `x = r + cos120·g + cos120·b`,
`y = sin120·g - sin120·b`. -/
def fromRGB (c : RGBR) : ℝ × ℝ :=
  (c.red + COS120 * c.green + COS120 * c.blue, SIN120 * c.green - SIN120 * c.blue)

/-- `math.atan2 y x`, realised as the complex argument of `x + y·i`
(both have range `(-π, π]` and the same sign conventions). -/
def atan2 (y x : ℝ) : ℝ := Complex.arg ⟨x, y⟩

/-- `Cartesian.get_angle`: `NaN` iff `x = y = 0`, modelled by `none`. -/
def getAngle (xy : ℝ × ℝ) : Option ℝ :=
  if xy.1 = 0 ∧ xy.2 = 0 then none else some (atan2 xy.2 xy.1)

/-- `Cartesian.get_hypot`: `math.hypot x y`. -/
def getHypot (xy : ℝ × ℝ) : ℝ := Real.sqrt (xy.1 ^ 2 + xy.2 ^ 2)

/-- `Cartesian.get_simplest_rgb` at the proportional precision
(`ROUND` is the identity there): the at-most-two-component RGB whose
projection is `(x, y)`. -/
def getSimplestRGB (xy : ℝ × ℝ) : RGBR :=
  let a := xy.1 / COS120
  let b := xy.2 / SIN120
  if 0 < xy.2 then
    if b < a then ⟨0, (a + b) / 2, (a - b) / 2⟩
    else ⟨xy.1 - b * COS120, b, 0⟩
  else if xy.2 < 0 then
    if -b < a then ⟨0, (a + b) / 2, (a - b) / 2⟩
    else ⟨xy.1 + b * COS120, 0, -b⟩
  else if xy.1 < 0 then ⟨0, xy.1 / COS120 / 2, xy.1 / COS120 / 2⟩
  else ⟨xy.1, 0, 0⟩

/-- A `HueNG` value: the namedtuple `(io, other, angle, chroma_correction)`.
A `NaN` angle (the grey sentinel) is modelled by `angle = none`; `io` is
`none` exactly for grey hues. -/
structure Hue where
  ioIdx : Option (ℕ × ℕ × ℕ)
  other : ℝ
  angle : Option ℝ
  chromaCorrection : ℝ

/-- `HueNG.is_grey`: `math.isnan(self.angle)`. -/
def Hue.isGrey (h : Hue) : Prop := h.angle = none

/-- `calc_other` inside `HueNG.from_angle`:
`ROUND(ONE * sin(oa) / sin(PI_120 - oa))`. -/
def calcOtherG (one : ℝ) (rnd : ℝ → ℝ) (oa : ℝ) : ℝ :=
  rnd (one * (Real.sin oa / Real.sin (2 * π / 3 - oa)))

/-- The `chroma_correction` computed by `from_angle` for `a = ONE = one`
and `b = other`: `1.0 if a == b or b == 0 else a / sqrt(a*a + b*b - a*b)`. -/
def ccOf (one o : ℝ) : ℝ :=
  if one = o ∨ o = 0 then 1 else one / Real.sqrt (one * one + o * o - one * o)

/-- `HueNG.from_angle` (rgbh.py lines 287-309), generic over the rgb
precision (`one`, `rnd`).  `none` is the `NaN` input.  The source's
`assert abs(angle) <= pi` is modelled separately by `fromAngleChecked`;
every internal caller satisfies it. -/
def fromAngleG (one : ℝ) (rnd : ℝ → ℝ) : Option ℝ → Hue
  | none => ⟨none, one, none, 1⟩
  | some θ =>
    let other :=
      if |θ| ≤ π / 3 then calcOtherG one rnd |θ|
      else if |θ| ≤ 2 * π / 3 then calcOtherG one rnd (2 * π / 3 - |θ|)
      else calcOtherG one rnd (|θ| - 2 * π / 3)
    let ioIdx : ℕ × ℕ × ℕ :=
      if |θ| ≤ π / 3 then (if 0 ≤ θ then (0, 1, 2) else (0, 2, 1))
      else if |θ| ≤ 2 * π / 3 then (if 0 ≤ θ then (1, 0, 2) else (2, 0, 1))
      else (if 0 ≤ θ then (1, 2, 0) else (2, 1, 0))
    ⟨some ioIdx, other, some θ, ccOf one other⟩

/-- `HuePN.from_angle`: proportional precision, `ONE = 1.0`, identity
rounding. -/
def fromAngle : Option ℝ → Hue := fromAngleG 1 id

/-- `Hue16.from_angle`: 16-bit precision, `ONE = 65535`,
`ROUND = int(x + 0.5)`. -/
def fromAngle16 : Option ℝ → Hue := fromAngleG 65535 (fun x => (pyround x : ℝ))

/-- `Hue8.from_angle`: 8-bit precision, `ONE = 255`, `ROUND = int(x + 0.5)`. -/
def fromAngle8 : Option ℝ → Hue := fromAngleG 255 (fun x => (pyround x : ℝ))

/-- `from_angle` together with its `assert abs(angle) <= math.pi`
(the assertion is checked after the `NaN` test, so `none` passes). -/
def fromAngleChecked (a : Option ℝ) : Option Hue :=
  match a with
  | none => some (fromAngle none)
  | some θ => if |θ| ≤ π then some (fromAngle (some θ)) else none

/-- `HueNG.rotated_by`: `from_angle(self.angle + delta_angle)`.  Adding to
`NaN` stays `NaN`; for a real angle the target `from_angle`'s assertion can
fire, modelled by the checked variant. -/
def Hue.rotatedBy (h : Hue) (δ : ℝ) : Option Hue :=
  match h.angle with
  | none => some (fromAngle none)
  | some θ => fromAngleChecked (some (θ + δ))

/-- `HueNG.get_xy_for_chroma` at the proportional precision:
`assert chroma > 0 and chroma <= 1.0`, then
`(hypot·cos angle, hypot·sin angle)` with `hypot = chroma * ONE / cc` and
`ONE = 1`.  A failing assertion (and the unreachable grey case, where the
Python expression would poison everything with `NaN`) is `none`. -/
def Hue.getXYForChroma (h : Hue) (c : ℝ) : Option (ℝ × ℝ) :=
  if 0 < c ∧ c ≤ 1 then
    match h.angle with
    | some θ => some (c / h.chromaCorrection * Real.cos θ, c / h.chromaCorrection * Real.sin θ)
    | none => none
  else none

/-- `HueNG.max_chroma_for_total` at the proportional precision
(rgbh.py lines 362-370); `ONE = 1`, `THREE = 3`.  The grey branch is
`min(1.0, total / ONE)`.  The `io[0]` lookup (which would raise on a grey
hue's `io = None`) is only reached with `io` present; `none` there is
given the unreachable default `θ`. -/
def Hue.maxChromaForTotal (h : Hue) (total : ℝ) : ℝ :=
  match h.angle with
  | none => min 1 (total / 1)
  | some θ =>
    let mct := 1 + h.other
    if total < mct then total / mct
    else
      let a :=
        match h.ioIdx with
        | some i => if i.1 = 0 then θ else if i.1 = 1 then θ - 2 * π / 3 else θ + 2 * π / 3
        | none => θ
      (3 - total) / (2 * Real.cos a) * h.chromaCorrection

/-- `HueNG.max_chroma_for_value`: `max_chroma_for_total(value * THREE)`
with `THREE = 3` at the proportional precision. -/
def Hue.maxChromaForValue (h : Hue) (v : ℝ) : ℝ := h.maxChromaForTotal (v * 3)

/-- The pure-hue rgb of a non-grey hue (its `rgb` property): dominant
channel `ONE = 1`, sub-dominant channel `other`, third channel `0`,
placed by `io`.  Stated as a function of the `io` tag. -/
def pureRGB (h : Hue) : RGBR :=
  match h.ioIdx with
  | some (0, 1, 2) => ⟨1, h.other, 0⟩
  | some (0, 2, 1) => ⟨1, 0, h.other⟩
  | some (1, 0, 2) => ⟨h.other, 1, 0⟩
  | some (2, 0, 1) => ⟨h.other, 0, 1⟩
  | some (1, 2, 0) => ⟨0, 1, h.other⟩
  | some (2, 1, 0) => ⟨0, h.other, 1⟩
  | _ => ⟨1, 1, 1⟩

/-! ## Hue comparison operators (rgbh.py lines 314-329)

`HueNG.__eq__`/`__lt__` receive a hue and read `other.angle`; the chained
operators (`__ne__`, `__le__`, ...) re-enter `__eq__`/`__lt__` passing the
angle value itself.  The angle wrapper type `mathx.Angle` lives in the
external `pysm.bab` package (not part of this repository); following the
spec ("equality/ordering compare angles") it is modelled as the bare angle
value, `none` standing for the grey `NaN` sentinel with float comparison
semantics (`NaN` compares false, `isnan` detects it). -/

/-- `HueNG.__eq__` against an angle value: `isnan(self.angle)` returns
`isnan(other)`, otherwise float equality (false against `NaN`). -/
def hueEqAux (h : Hue) (oa : Option ℝ) : Prop :=
  match h.angle, oa with
  | none, a => a = none
  | some _, none => False
  | some x, some y => x = y

/-- `HueNG.__eq__ other`: compare with `other.angle`. -/
def hueEq (h g : Hue) : Prop := hueEqAux h g.angle

/-- `HueNG.__ne__ other`: `not self.__eq__(other.angle)`. -/
def hueNe (h g : Hue) : Prop := ¬hueEqAux h g.angle

/-- `HueNG.__lt__` against an angle value: a grey hue is less than
anything non-grey (`not isnan(other)`); otherwise float `<`
(false against `NaN`). -/
def hueLtAux (h : Hue) (oa : Option ℝ) : Prop :=
  match h.angle, oa with
  | none, a => a ≠ none
  | some _, none => False
  | some x, some y => x < y

/-- `HueNG.__lt__ other`: compare with `other.angle`. -/
def hueLt (h g : Hue) : Prop := hueLtAux h g.angle

/-! ## The interactive manipulator (rgbh.py: RGBManipulator)

`__set_rgb` recomputes `value`, `xy`, `__base_rgb`, `hue` and `chroma`
from `__rgb` on every mutation, so those attributes are always coherent
with `__rgb`; the embedded state is therefore just `(rgb, last_hue)` and
the cached attributes are functions of `rgb`. -/

/-- The mutable state of an `RGBManipulator`: the internal proportional
rgb and the remembered last hue. -/
structure MState where
  rgb : RGBR
  lastHue : Hue

/-- Cached `self.value`: `self.__rgb.get_value()`. -/
def MState.value (s : MState) : ℝ := s.rgb.value

/-- Cached `self.xy`: `Cartesian.from_rgb(self.__rgb)`. -/
def MState.xy (s : MState) : ℝ × ℝ := fromRGB s.rgb

/-- Cached `self.__base_rgb`: `self.xy.get_simplest_rgb()`. -/
def MState.baseRGB (s : MState) : RGBR := getSimplestRGB s.xy

/-- Cached `self.hue`: `HuePN.from_angle(self.xy.get_angle())`. -/
def MState.hue (s : MState) : Hue := fromAngle (getAngle s.xy)

/-- Cached `self.chroma`:
`min(self.xy.get_hypot() * self.hue.chroma_correction, 1.0)`. -/
def MState.chroma (s : MState) : ℝ :=
  min (getHypot s.xy * s.hue.chromaCorrection) 1

/-- `__set_rgb`: replace the internal rgb (all cached attributes being
derived); `__last_hue` is not touched. -/
def setRGB (r : RGBR) (s : MState) : MState := ⟨r, s.lastHue⟩

/-- `RGBManipulator.__init__` / `set_rgb`: store the proportional rgb and
remember `self.hue` as the last hue. -/
def initState (r : RGBR) : MState := ⟨r, fromAngle (getAngle (fromRGB r))⟩

/-- `_min_value_for_current_HC`: `self.__base_rgb.get_value()`. -/
def MState.minValueHC (s : MState) : ℝ := s.baseRGB.value

/-- `_max_value_for_current_HC`:
`self.__base_rgb.get_value() + 1.0 - max(self.__base_rgb)`. -/
def MState.maxValueHC (s : MState) : ℝ := s.baseRGB.value + 1 - s.baseRGB.maxC

/-- `ONE` of a requested output precision, as a real. -/
def Prec.oneR : Prec → ℝ
  | .p8 => 255
  | .p16 => 65535
  | .ppn => 1

/-- `ROUND` of a requested output precision, as a real function. -/
def Prec.rndR : Prec → ℝ → ℝ
  | .p8, x => (pyround x : ℝ)
  | .p16, x => (pyround x : ℝ)
  | .ppn, x => x

/-- `RGBManipulator.get_rgb`: `rgbt(*[rgbt.ROUND(c * rgbt.ONE) for c in rgb])`. -/
def MState.getRGB (s : MState) (t : Prec) : RGBR :=
  ⟨t.rndR (s.rgb.red * t.oneR), t.rndR (s.rgb.green * t.oneR), t.rndR (s.rgb.blue * t.oneR)⟩

/-- `_set_from_value` (rgbh.py lines 504-508): rebuild the rgb at the
current hue with the requested value, re-adding grey.  `none` when
`get_xy_for_chroma`'s assertion fires. -/
def setFromValue (newValue : ℝ) (s : MState) : Option MState :=
  (s.hue.getXYForChroma (s.hue.maxChromaForValue newValue)).map fun xy =>
    let nb := getSimplestRGB xy
    setRGB (nb.addGrey (newValue - nb.value)) s

/-- `_set_from_chroma` (rgbh.py lines 509-516): scale the base rgb to the
new chroma, then re-add as much grey as value and headroom allow. -/
def setFromChroma (newChroma : ℝ) (s : MState) : MState :=
  let nb := getSimplestRGB (newChroma / s.chroma * s.xy.1, newChroma / s.chroma * s.xy.2)
  let delta := min (1 - nb.maxC) (s.value - nb.value)
  if 0 < delta then setRGB (nb.addGrey delta) s else setRGB nb s

/-- `RGBManipulator.decr_value` (rgbh.py lines 517-529).  The boolean is
the Python return value; `none` models an exception (state unchanged). -/
def decrValue (dv : ℝ) (s : MState) : Option (Bool × MState) :=
  if s.value ≤ 0 then some (false, s)
  else
    let newValue := max 0 (s.value - dv)
    if newValue = 0 then some (true, setRGB ⟨0, 0, 0⟩ s)
    else if newValue < s.minValueHC then (setFromValue newValue s).map fun s1 => (true, s1)
    else some (true, setRGB (s.baseRGB.addGrey (newValue - s.minValueHC)) s)

/-- `RGBManipulator.incr_value` (rgbh.py lines 530-542). -/
def incrValue (dv : ℝ) (s : MState) : Option (Bool × MState) :=
  if 1 ≤ s.value then some (false, s)
  else
    let newValue := min 1 (s.value + dv)
    if 1 ≤ newValue then some (true, setRGB ⟨1, 1, 1⟩ s)
    else if s.maxValueHC < newValue then (setFromValue newValue s).map fun s1 => (true, s1)
    else some (true, setRGB (s.baseRGB.addGrey (newValue - s.minValueHC)) s)

/-- `RGBManipulator.decr_chroma` (rgbh.py lines 543-547). -/
def decrChroma (dc : ℝ) (s : MState) : Option (Bool × MState) :=
  if s.chroma ≤ 0 then some (false, s)
  else some (true, setFromChroma (max 0 (s.chroma - dc)) s)

/-- `RGBManipulator.incr_chroma` (rgbh.py lines 548-577).  In the grey
branches the reference hue is the remembered last hue, or the arbitrary
`HuePN.from_angle(0.5)` when that is grey too; afterwards
`self.__last_hue = self.hue` records the (new) hue. -/
def incrChroma (dc : ℝ) (s : MState) : Option (Bool × MState) :=
  if 1 ≤ s.chroma then some (false, s)
  else
    match s.hue.angle with
    | none =>
      if s.value ≤ 0 ∨ 1 ≤ s.value then
        let ref := match s.lastHue.angle with
          | none => fromAngle (some (1 / 2))
          | some _ => s.lastHue
        (ref.getXYForChroma dc).map fun xy =>
          let nb := getSimplestRGB xy
          let s1 :=
            if s.value ≤ 0 then setRGB nb s
            else setRGB (nb.addGrey (1 - nb.maxC)) s
          (true, ⟨s1.rgb, s1.hue⟩)
      else
        let mc := s.lastHue.maxChromaForValue s.value
        let nc := min dc mc
        let ref := match s.lastHue.angle with
          | none => fromAngle (some (1 / 2))
          | some _ => s.lastHue
        (ref.getXYForChroma nc).map fun xy =>
          let nb := getSimplestRGB xy
          let s1 := setRGB (nb.addGrey (s.value - nb.value)) s
          (true, ⟨s1.rgb, s1.hue⟩)
    | some _ => some (true, setFromChroma (min 1 (s.chroma + dc)) s)

/-- `RGBManipulator.rotate_hue` (rgbh.py lines 578-591): no-op on grey;
otherwise rebuild at the rotated hue with the same chroma and (as nearly
as possible) the same value, then remember the new hue. -/
def rotateHue (dh : ℝ) (s : MState) : Option (Bool × MState) :=
  match s.hue.angle with
  | none => some (false, s)
  | some _ =>
    (s.hue.rotatedBy dh).bind fun h1 =>
      (h1.getXYForChroma s.chroma).map fun xy =>
        let nb := getSimplestRGB xy
        let maxDelta := 1 - nb.maxC
        let delta := min maxDelta (s.value - nb.value)
        let s1 := if 0 < delta then setRGB (nb.addGrey delta) s else setRGB nb s
        (true, ⟨s1.rgb, s1.hue⟩)

/-- One manipulator call with its argument. -/
inductive MOp
  | decrV (δ : ℝ)
  | incrV (δ : ℝ)
  | decrC (δ : ℝ)
  | incrC (δ : ℝ)
  | rotH (δ : ℝ)

/-- Dispatch one call. -/
def applyOp : MOp → MState → Option (Bool × MState)
  | .decrV δ, s => decrValue δ s
  | .incrV δ, s => incrValue δ s
  | .decrC δ, s => decrChroma δ s
  | .incrC δ, s => incrChroma δ s
  | .rotH δ, s => rotateHue δ s

/-- The state after one call: a raised exception (`none`) leaves the
Python object unchanged (all mutations happen after the asserts). -/
def stepOp (s : MState) (op : MOp) : MState :=
  match applyOp op s with
  | none => s
  | some (_, s1) => s1

/-- The state after a sequence of calls. -/
def runOps (ops : List MOp) (s : MState) : MState := ops.foldl stepOp s

/-- The value/chroma increments of a call sequence are nonnegative
(rotations are unrestricted). -/
def MOp.nonnegDelta : MOp → Prop
  | .decrV δ => 0 ≤ δ
  | .incrV δ => 0 ≤ δ
  | .decrC δ => 0 ≤ δ
  | .incrC δ => 0 ≤ δ
  | .rotH _ => True

/-- All three channels lie in `[0, 1]`. -/
def RGBR.inUnit (c : RGBR) : Prop :=
  0 ≤ c.red ∧ c.red ≤ 1 ∧ 0 ≤ c.green ∧ c.green ≤ 1 ∧ 0 ≤ c.blue ∧ c.blue ≤ 1

/-- All three channels lie in `[0, m]` (the range check on `get_rgb`
output, `m = ONE` of the requested precision). -/
def RGBR.inRange (c : RGBR) (m : ℝ) : Prop :=
  0 ≤ c.red ∧ c.red ≤ m ∧ 0 ≤ c.green ∧ c.green ≤ m ∧ 0 ≤ c.blue ∧ c.blue ≤ m

/-- A hue the manipulator can hold as `__last_hue`: grey, or built by
`from_angle` from an angle satisfying its `assert abs(angle) <= math.pi`
(every assignment to `__last_hue` is of this shape). -/
def WFHue (h : Hue) : Prop :=
  h = fromAngle none ∨ ∃ θ, |θ| ≤ π ∧ h = fromAngle (some θ)

/-- The manipulator data invariant: the internal proportional rgb has all
channels in `[0, 1]` and the remembered last hue is well-formed. -/
def Inv (s : MState) : Prop := s.rgb.inUnit ∧ WFHue s.lastHue

/-- A call the rgb range invariant survives: nonnegative value/chroma
deltas, and `incr_chroma` not invoked at a grey colour whose value is
strictly between 0 and 1 while the remembered last hue is also grey (on
that path `max_chroma_for_value` is evaluated on the grey last hue but the
chroma is applied along the arbitrary reference hue `from_angle(0.5)`, and
the rebuilt rgb can leave `[0, 1]`). -/
def SafeOp (s : MState) : MOp → Prop
  | .decrV δ => 0 ≤ δ
  | .incrV δ => 0 ≤ δ
  | .decrC δ => 0 ≤ δ
  | .incrC δ => 0 ≤ δ ∧ (s.hue.isGrey → s.lastHue.isGrey → s.value ≤ 0 ∨ 1 ≤ s.value)
  | .rotH _ => True

/-- Every call of the sequence is safe in the state it actually runs in. -/
def SafeTrace : MState → List MOp → Prop
  | _, [] => True
  | s, op :: ops => SafeOp s op ∧ SafeTrace (stepOp s op) ops

/-! ## Fixed-precision rotation (rgbh.py: RGBNG.rotated at BPC8) -/

/-- An `RGB8` triple with integer channels. -/
structure RGBZ where
  red : ℤ
  green : ℤ
  blue : ℤ
deriving DecidableEq

/-- `RGB8.get_value`: `Fraction(sum(self), THREE)` with `THREE = 765`. -/
def RGBZ.value8 (c : RGBZ) : ℚ := ((c.red + c.green + c.blue : ℤ) : ℚ) / 765

/-- `RGBNG.non_zero_components`: `3 - components.count(0)`. -/
def RGBZ.nonZeroComponents (c : RGBZ) : ℕ :=
  (if c.red = 0 then 0 else 1) + (if c.green = 0 then 0 else 1) + (if c.blue = 0 then 0 else 1)

/-- `calc_ks` inside `RGBNG.rotated`: `a = sin δ`, `b = sin(PI_120 - δ)`,
`k = (b, a) / (a + b)`; Python raises `ZeroDivisionError` when `a + b = 0`
(modelled as `none`). -/
def calcKs (δ : ℝ) : Option (ℝ × ℝ) :=
  let a := Real.sin δ
  let b := Real.sin (2 * π / 3 - δ)
  if a + b = 0 then none else some (b / (a + b), a / (a + b))

/-- `RGBNG.rotated` (rgbh.py lines 183-216) at 8-bit precision:
`f(c1, c2) = ROUND(rgb[c1]·k1 + rgb[c2]·k2)` with the channel pairs chosen
by the 120°-sector of the rotation. -/
def rotated8 (c : RGBZ) (δ : ℝ) : Option RGBZ :=
  let f := fun (k : ℝ × ℝ) (c1 c2 : ℤ) => pyround ((c1 : ℝ) * k.1 + (c2 : ℝ) * k.2)
  if 0 < δ then
    if 2 * π / 3 < δ then
      (calcKs (δ - 2 * π / 3)).map fun k =>
        ⟨f k c.blue c.green, f k c.red c.blue, f k c.green c.red⟩
    else
      (calcKs δ).map fun k =>
        ⟨f k c.red c.blue, f k c.green c.red, f k c.blue c.green⟩
  else if δ < 0 then
    if δ < -(2 * π / 3) then
      (calcKs (|δ| - 2 * π / 3)).map fun k =>
        ⟨f k c.green c.blue, f k c.blue c.red, f k c.red c.green⟩
    else
      (calcKs |δ|).map fun k =>
        ⟨f k c.red c.green, f k c.green c.blue, f k c.blue c.red⟩
  else some c

/-! ## HCV colour view at 16-bit precision (vpaint.py lines 34-114) -/

/-- The 16-bit triple wrapped by a `HCV` view (constructed with
`rgb.converted_to(RGB16)`; we take the already-converted triple). -/
structure HCV16 where
  rgb : RGBZ

/-- The 16-bit triple as a real triple (for the Cartesian projection). -/
def RGBZ.toR (c : RGBZ) : RGBR := ⟨(c.red : ℝ), (c.green : ℝ), (c.blue : ℝ)⟩

/-- `self.__value`: `RGB16.get_value`, `Fraction(sum, 196605)`, as a real. -/
def HCV16.value (h : HCV16) : ℝ := ((h.rgb.red + h.rgb.green + h.rgb.blue : ℤ) : ℝ) / 196605

/-- `xy = rgbh.Cartesian.from_rgb(self.__rgb)`. -/
def HCV16.xy (h : HCV16) : ℝ × ℝ := fromRGB h.rgb.toR

/-- `self.__hue`: `Hue.from_angle(xy.get_angle())` at 16-bit precision. -/
def HCV16.hue (h : HCV16) : Hue := fromAngle16 (getAngle h.xy)

/-- `self.__chroma`: `xy.get_hypot() * hue.chroma_correction / ONE`. -/
def HCV16.chroma (h : HCV16) : ℝ := getHypot h.xy * h.hue.chromaCorrection / 65535

/-- `Hue.max_chroma_value` at 16-bit precision:
`Fraction(ONE + other, THREE)`. -/
def HCV16.maxChromaValue (h : HCV16) : ℝ := (65535 + h.hue.other) / 196605

/-- `RGB16.WHITE * scalar` (`RGBNG.__mul__`): every channel is
`ROUND(65535 * scalar)`. -/
def white16Mul (m : ℝ) : RGBZ := ⟨pyround (65535 * m), pyround (65535 * m), pyround (65535 * m)⟩

/-- `HCV.zero_chroma_rgb` (vpaint.py lines 75-88).  On a grey hue the
source executes `return self.__value_rgb`, but no attribute
`_HCV__value_rgb` exists (the property is `value_rgb`), and the
`__getattr__` fallbacks cannot supply it either, so the call raises
`AttributeError`: modelled as `none`. -/
def HCV16.zeroChromaRGB (h : HCV16) : Option RGBZ :=
  match h.hue.angle with
  | none => none
  | some _ =>
    let mcv := h.maxChromaValue
    let dc := 1 - h.chroma
    if dc ≠ 0 then some (white16Mul ((h.value - mcv * h.chroma) / dc))
    else if mcv < 1 / 2 then some ⟨0, 0, 0⟩
    else some ⟨65535, 65535, 65535⟩

end

end EPaint

namespace EPaint

/-! # Theorems -/

/-! ## Rounding helpers over ℚ -/

theorem pytruncQ_of_nonneg {x : ℚ} (h : 0 ≤ x) : pytruncQ x = ⌊x⌋ := by
  unfold pytruncQ
  rw [if_neg (not_lt.mpr h)]

theorem pytruncQ_round_int (n : ℤ) (hn : 0 ≤ n) : pytruncQ ((n : ℚ) + 1 / 2) = n := by
  rw [pytruncQ_of_nonneg (by positivity)]
  rw [Int.floor_eq_iff]
  constructor
  · norm_num
  · linarith

theorem pytruncQ_round_nonneg {x : ℚ} (h : 0 ≤ x) : 0 ≤ pytruncQ (x + 1 / 2) := by
  rw [pytruncQ_of_nonneg (by positivity)]
  positivity

theorem pytruncQ_round_abs {x : ℚ} (h : 0 ≤ x) :
    |(pytruncQ (x + 1 / 2) : ℚ) - x| ≤ 1 / 2 := by
  rw [pytruncQ_of_nonneg (by positivity)]
  rw [abs_le]
  constructor
  · have := Int.lt_floor_add_one (x + 1 / 2)
    linarith
  · have := Int.floor_le (x + 1 / 2)
    linarith

end EPaint

namespace EPaint

/-! ## Per-channel conversion round trips -/


theorem convChannel_p8_p16 (c : ℚ) :
    convChannel .p8 .p16 c = (pytruncQ (c * 65535 / 255 + 1 / 2) : ℚ) := rfl

theorem convChannel_p16_p8 (c : ℚ) :
    convChannel .p16 .p8 c = (pytruncQ (c * 255 / 65535 + 1 / 2) : ℚ) := rfl

theorem convChannel_p8_ppn (c : ℚ) : convChannel .p8 .ppn c = c / 255 := by
  unfold convChannel
  simp only [Prec.rnd, Prec.one]
  rw [mul_div_assoc]
  norm_num [mul_one_div]

theorem convChannel_p16_ppn (c : ℚ) : convChannel .p16 .ppn c = c / 65535 := by
  unfold convChannel
  simp only [Prec.rnd, Prec.one]
  rw [mul_div_assoc]
  norm_num [mul_one_div]

theorem convChannel_ppn_p8 (c : ℚ) :
    convChannel .ppn .p8 c = (pytruncQ (c * 255 + 1 / 2) : ℚ) := by
  unfold convChannel
  simp only [Prec.rnd, Prec.one]
  norm_num

theorem convChannel_ppn_p16 (c : ℚ) :
    convChannel .ppn .p16 c = (pytruncQ (c * 65535 + 1 / 2) : ℚ) := by
  unfold convChannel
  simp only [Prec.rnd, Prec.one]
  norm_num

theorem conv_8_16_exact (n : ℕ) :
    convChannel .p16 .p8 (convChannel .p8 .p16 (n : ℚ)) = n := by
  rw [convChannel_p8_p16]
  have e1 : (n : ℚ) * (65535 : ℚ) / 255 = ((257 * n : ℤ) : ℚ) := by
    push_cast
    ring_nf
  rw [e1, pytruncQ_round_int _ (by positivity), convChannel_p16_p8]
  have e2 : ((257 * (n : ℤ) : ℤ) : ℚ) * 255 / 65535 = ((n : ℤ) : ℚ) := by
    push_cast
    ring_nf
  rw [e2, pytruncQ_round_int _ (by positivity)]
  push_cast
  ring

theorem conv_16_8_close (n : ℕ) :
    |convChannel .p8 .p16 (convChannel .p16 .p8 (n : ℚ)) - n| ≤ 257 := by
  rw [convChannel_p16_p8]
  have e1 : (n : ℚ) * (255 : ℚ) / 65535 = (n : ℚ) / 257 := by
    rw [mul_div_assoc]
    norm_num [mul_one_div]
  rw [e1]
  set m : ℤ := pytruncQ ((n : ℚ) / 257 + 1 / 2) with hm
  have hmabs : |(m : ℚ) - (n : ℚ) / 257| ≤ 1 / 2 := pytruncQ_round_abs (by positivity)
  have hm0 : 0 ≤ m := pytruncQ_round_nonneg (by positivity)
  rw [convChannel_p8_p16]
  have e2 : ((m : ℤ) : ℚ) * 65535 / 255 = ((257 * m : ℤ) : ℚ) := by
    push_cast
    ring_nf
  rw [e2, pytruncQ_round_int _ (by positivity)]
  have e3 : ((257 * m : ℤ) : ℚ) - (n : ℚ) = 257 * ((m : ℚ) - (n : ℚ) / 257) := by
    push_cast
    ring
  rw [e3, abs_mul, abs_of_pos (show (0 : ℚ) < 257 by norm_num)]
  nlinarith [hmabs]

theorem conv_8_pn_exact (n : ℕ) :
    convChannel .ppn .p8 (convChannel .p8 .ppn (n : ℚ)) = n := by
  rw [convChannel_p8_ppn, convChannel_ppn_p8]
  have e1 : (n : ℚ) / 255 * 255 = ((n : ℤ) : ℚ) := by
    push_cast
    field_simp
  rw [e1, pytruncQ_round_int _ (by positivity)]
  push_cast
  ring

theorem conv_16_pn_exact (n : ℕ) :
    convChannel .ppn .p16 (convChannel .p16 .ppn (n : ℚ)) = n := by
  rw [convChannel_p16_ppn, convChannel_ppn_p16]
  have e1 : (n : ℚ) / 65535 * 65535 = ((n : ℤ) : ℚ) := by
    push_cast
    field_simp
  rw [e1, pytruncQ_round_int _ (by positivity)]
  push_cast
  ring

theorem conv_pn_8_close (c : ℚ) (h0 : 0 ≤ c) :
    |convChannel .p8 .ppn (convChannel .ppn .p8 c) - c| ≤ 1 / 510 := by
  rw [convChannel_ppn_p8, convChannel_p8_ppn]
  set m : ℤ := pytruncQ (c * 255 + 1 / 2) with hm
  have hmabs : |(m : ℚ) - c * 255| ≤ 1 / 2 := pytruncQ_round_abs (by positivity)
  have e1 : (m : ℚ) / 255 - c = ((m : ℚ) - c * 255) / 255 := by ring
  rw [e1, abs_div, abs_of_pos (show (0 : ℚ) < 255 by norm_num)]
  rw [div_le_div_iff (by norm_num) (by norm_num)]
  nlinarith [hmabs]

theorem conv_pn_16_close (c : ℚ) (h0 : 0 ≤ c) :
    |convChannel .p16 .ppn (convChannel .ppn .p16 c) - c| ≤ 1 / 131070 := by
  rw [convChannel_ppn_p16, convChannel_p16_ppn]
  set m : ℤ := pytruncQ (c * 65535 + 1 / 2) with hm
  have hmabs : |(m : ℚ) - c * 65535| ≤ 1 / 2 := pytruncQ_round_abs (by positivity)
  have e1 : (m : ℚ) / 65535 - c = ((m : ℚ) - c * 65535) / 65535 := by ring
  rw [e1, abs_div, abs_of_pos (show (0 : ℚ) < 65535 by norm_num)]
  rw [div_le_div_iff (by norm_num) (by norm_num)]
  nlinarith [hmabs]

end EPaint

namespace EPaint

theorem convertedTo_self (p : Prec) (c : RGBQ) : convertedTo p p c = c := by
  unfold convertedTo
  rw [if_pos rfl]

theorem convertedTo_ne (p q : Prec) (hne : q.one ≠ p.one) (c : RGBQ) :
    convertedTo p q c = ⟨convChannel p q c.red, convChannel p q c.green, convChannel p q c.blue⟩ := by
  unfold convertedTo
  rw [if_neg hne]

/-- C2 (amended): for every RGB triple representable at precision `P` and
every target precision `Q`, converting to `Q` and back to `P` returns each
channel within one step of the intermediate grid: within `P.ONE / Q.ONE`
in `P`-units when `Q` is a fixed precision, and exactly when `Q` is the
real-proportion precision.  (The original claim's one-unit-of-`P` bound
holds only when `Q` is at least as fine as `P`.) -/
theorem claim_C2_roundtrip (p q : Prec) (c : RGBQ) (h : rgbRepresentable p c) :
    |(convertedTo q p (convertedTo p q c)).red - c.red| ≤ rtTol p q ∧
    |(convertedTo q p (convertedTo p q c)).green - c.green| ≤ rtTol p q ∧
    |(convertedTo q p (convertedTo p q c)).blue - c.blue| ≤ rtTol p q := by
  obtain ⟨hr, hg, hb⟩ := h
  cases p with
  | p8 =>
    obtain ⟨nr, _, er⟩ := hr
    obtain ⟨ng, _, eg⟩ := hg
    obtain ⟨nb, _, eb⟩ := hb
    cases q with
    | p8 =>
      rw [convertedTo_self, convertedTo_self]
      norm_num [rtTol, Prec.one]
    | p16 =>
      rw [convertedTo_ne _ _ (by norm_num [Prec.one]),
        convertedTo_ne _ _ (by norm_num [Prec.one])]
      dsimp only
      rw [er, eg, eb, conv_8_16_exact, conv_8_16_exact, conv_8_16_exact]
      norm_num [rtTol, Prec.one]
    | ppn =>
      rw [convertedTo_ne _ _ (by norm_num [Prec.one]),
        convertedTo_ne _ _ (by norm_num [Prec.one])]
      dsimp only
      rw [er, eg, eb, conv_8_pn_exact, conv_8_pn_exact, conv_8_pn_exact]
      norm_num [rtTol, Prec.one]
  | p16 =>
    obtain ⟨nr, _, er⟩ := hr
    obtain ⟨ng, _, eg⟩ := hg
    obtain ⟨nb, _, eb⟩ := hb
    cases q with
    | p8 =>
      rw [convertedTo_ne _ _ (by norm_num [Prec.one]),
        convertedTo_ne _ _ (by norm_num [Prec.one])]
      dsimp only
      rw [er, eg, eb]
      have tol : rtTol .p16 .p8 = 257 := by norm_num [rtTol, Prec.one]
      rw [tol]
      exact ⟨conv_16_8_close nr, conv_16_8_close ng, conv_16_8_close nb⟩
    | p16 =>
      rw [convertedTo_self, convertedTo_self]
      norm_num [rtTol, Prec.one]
    | ppn =>
      rw [convertedTo_ne _ _ (by norm_num [Prec.one]),
        convertedTo_ne _ _ (by norm_num [Prec.one])]
      dsimp only
      rw [er, eg, eb, conv_16_pn_exact, conv_16_pn_exact, conv_16_pn_exact]
      norm_num [rtTol, Prec.one]
  | ppn =>
    cases q with
    | p8 =>
      rw [convertedTo_ne _ _ (by norm_num [Prec.one]),
        convertedTo_ne _ _ (by norm_num [Prec.one])]
      dsimp only
      have tol : rtTol .ppn .p8 = 1 / 255 := by norm_num [rtTol, Prec.one]
      rw [tol]
      refine ⟨le_trans (conv_pn_8_close _ hr.1) (by norm_num),
        le_trans (conv_pn_8_close _ hg.1) (by norm_num),
        le_trans (conv_pn_8_close _ hb.1) (by norm_num)⟩
    | p16 =>
      rw [convertedTo_ne _ _ (by norm_num [Prec.one]),
        convertedTo_ne _ _ (by norm_num [Prec.one])]
      dsimp only
      have tol : rtTol .ppn .p16 = 1 / 65535 := by norm_num [rtTol, Prec.one]
      rw [tol]
      refine ⟨le_trans (conv_pn_16_close _ hr.1) (by norm_num),
        le_trans (conv_pn_16_close _ hg.1) (by norm_num),
        le_trans (conv_pn_16_close _ hb.1) (by norm_num)⟩
    | ppn =>
      rw [convertedTo_self, convertedTo_self]
      norm_num [rtTol]

/-- C2 witness: the amended round trip evaluated at the 8-bit triple
`(7, 0, 255)` through the 16-bit precision. -/
theorem claim_C2_roundtrip_witness :
    rgbRepresentable .p8 ⟨7, 0, 255⟩ ∧
    |(convertedTo .p16 .p8 (convertedTo .p8 .p16 ⟨7, 0, 255⟩)).red - 7| ≤ rtTol .p8 .p16 ∧
    |(convertedTo .p16 .p8 (convertedTo .p8 .p16 ⟨7, 0, 255⟩)).green - 0| ≤ rtTol .p8 .p16 ∧
    |(convertedTo .p16 .p8 (convertedTo .p8 .p16 ⟨7, 0, 255⟩)).blue - 255| ≤ rtTol .p8 .p16 := by
  have hrep : rgbRepresentable .p8 ⟨7, 0, 255⟩ :=
    ⟨⟨7, by norm_num [Prec.one], by norm_num⟩, ⟨0, by norm_num [Prec.one], by norm_num⟩,
      ⟨255, by norm_num [Prec.one], by norm_num⟩⟩
  exact ⟨hrep, claim_C2_roundtrip .p8 .p16 ⟨7, 0, 255⟩ hrep⟩

/-- C2 counterexample: the claim as stated (round trip within one rounding
unit of `P` for every target precision `Q`) fails: the 16-bit channel 100
converted to 8 bits and back becomes 0, an error of 100 units. -/
theorem claim_C2_counterexample :
    rgbRepresentable .p16 ⟨100, 100, 100⟩ ∧
    convertedTo .p8 .p16 (convertedTo .p16 .p8 ⟨100, 100, 100⟩) = ⟨0, 0, 0⟩ ∧
    ¬|(convertedTo .p8 .p16 (convertedTo .p16 .p8 ⟨100, 100, 100⟩)).red - 100| ≤ 1 := by
  have h1 : convChannel .p16 .p8 (100 : ℚ) = 0 := by
    rw [convChannel_p16_p8, pytruncQ_of_nonneg (by positivity)]
    have : ⌊(100 * 255 / 65535 + 1 / 2 : ℚ)⌋ = 0 := by
      rw [Int.floor_eq_iff] <;> norm_num
    rw [this]
    norm_num
  have h2 : convChannel .p8 .p16 (0 : ℚ) = 0 := by
    rw [convChannel_p8_p16, pytruncQ_of_nonneg (by positivity)]
    have : ⌊(0 * 65535 / 255 + 1 / 2 : ℚ)⌋ = 0 := by
      rw [Int.floor_eq_iff] <;> norm_num
    rw [this]
    norm_num
  have hin : convertedTo .p16 .p8 ⟨100, 100, 100⟩ = ⟨0, 0, 0⟩ := by
    rw [convertedTo_ne _ _ (by norm_num [Prec.one])]
    dsimp only
    rw [h1]
  have hout : convertedTo .p8 .p16 (⟨0, 0, 0⟩ : RGBQ) = ⟨0, 0, 0⟩ := by
    rw [convertedTo_ne _ _ (by norm_num [Prec.one])]
    dsimp only
    rw [h2]
  refine ⟨⟨⟨100, by norm_num [Prec.one], by norm_num⟩, ⟨100, by norm_num [Prec.one], by norm_num⟩,
      ⟨100, by norm_num [Prec.one], by norm_num⟩⟩, ?_, ?_⟩
  · rw [hin, hout]
  · rw [hin, hout]
    norm_num

end EPaint

namespace EPaint

theorem pytruncQ_eq (x : ℚ) (n : ℤ) (h0 : 0 ≤ x) (hl : (n : ℚ) ≤ x) (hu : x < n + 1) :
    pytruncQ x = n := by
  rw [pytruncQ_of_nonneg h0, Int.floor_eq_iff]
  exact ⟨by exact_mod_cast hl, by exact_mod_cast hu⟩

theorem round16_eval (x : ℚ) (n : ℤ) (h0 : 0 ≤ x + 1 / 2) (hl : (n : ℚ) ≤ x + 1 / 2)
    (hu : x + 1 / 2 < n + 1) : round16 x = n := by
  rw [round16, pytruncQ_eq (x + 1 / 2) n h0 hl hu]

theorem mixRedWhite_fold :
    mixtureFold [⟨red16, ⟨1, 1⟩, 1⟩, ⟨white16, ⟨1, 1⟩, 1⟩] = (2, ⟨131070, 65535, 65535⟩, ⟨2, 2⟩) := by
  simp only [mixtureFold, List.foldl, red16, white16, rgbAdd, rgbMulZ, charAdd, charMulZ]
  norm_num
  rw [round16_eval (65535 : ℚ) 65535 (by norm_num) (by norm_num) (by norm_num),
    round16_eval (0 : ℚ) 0 (by norm_num) (by norm_num) (by norm_num)]
  norm_num

theorem mixRedWhite :
    mixture [⟨red16, ⟨1, 1⟩, 1⟩, ⟨white16, ⟨1, 1⟩, 1⟩] =
      .ok ⟨⟨65535, 32768, 32768⟩, ⟨1, 1⟩⟩ := by
  rw [mixture, mixRedWhite_fold]
  norm_num [rgbDivZ, charDivZ]
  rw [round16_eval (65535 : ℚ) 65535 (by norm_num) (by norm_num) (by norm_num),
    round16_eval ((65535 : ℚ) / 2) 32768 (by norm_num) (by norm_num) (by norm_num)]
  norm_num

/-- C1 counterexample: mixing `(RED, 1 part)` and `(WHITE, 1 part)` at
16-bit precision does give `rgb = (ONE, ONE/2, ONE/2)` up to rounding, but
the derived value is `131071/196605 ≈ 0.6667`, not `0.75`. -/
theorem claim_C1_counterexample :
    mixture [⟨red16, ⟨1, 1⟩, 1⟩, ⟨white16, ⟨1, 1⟩, 1⟩] =
      .ok ⟨⟨65535, 32768, 32768⟩, ⟨1, 1⟩⟩ ∧
    getValue16 ⟨65535, 32768, 32768⟩ ≠ 3 / 4 := by
  refine ⟨mixRedWhite, ?_⟩
  norm_num [getValue16]

/-- C1 (amended): mixing `(RED, 1 part)` and `(WHITE, 1 part)` yields
`rgb = (ONE, ONE/2, ONE/2)` with each channel within one rounding unit,
and a derived value of `131071/196605`, i.e. `2/3` to within one value
unit `1/(3·ONE)` (not `0.75`). -/
theorem claim_C1_mixture :
    mixture [⟨red16, ⟨1, 1⟩, 1⟩, ⟨white16, ⟨1, 1⟩, 1⟩] =
      .ok ⟨⟨65535, 32768, 32768⟩, ⟨1, 1⟩⟩ ∧
    |(65535 : ℚ) - 65535| ≤ 1 ∧ |(32768 : ℚ) - 65535 / 2| ≤ 1 ∧
    getValue16 ⟨65535, 32768, 32768⟩ = 131071 / 196605 ∧
    |getValue16 ⟨65535, 32768, 32768⟩ - 2 / 3| ≤ 1 / 196605 := by
  refine ⟨mixRedWhite, by norm_num, ?_, by norm_num [getValue16], ?_⟩
  · rw [abs_le]
    constructor <;> norm_num
  · rw [abs_le]
    constructor <;> norm_num [getValue16]

theorem mixtureFold_parts (blobs : List Blob) :
    (mixtureFold blobs).1 = (blobs.map Blob.parts).sum := by
  suffices h : ∀ (l : List Blob) (a : ℤ × RGBQ × CharVals),
      (l.foldl (fun acc b =>
        (acc.1 + b.parts, rgbAdd acc.2.1 (rgbMulZ b.rgb b.parts),
          charAdd acc.2.2 (charMulZ b.chars b.parts))) a).1 = a.1 + (l.map Blob.parts).sum by
    rw [mixtureFold, h]
    simp
  intro l
  induction l with
  | nil => simp
  | cons x xs ih =>
    intro a
    simp only [List.foldl_cons, List.map_cons, List.sum_cons, ih]
    ring

/-- C5: constructing a Mixture from an empty blob list or from blobs whose
parts sum to zero fails with the `Empty Mixture` assertion; any blob list
with positive total parts constructs successfully. -/
theorem claim_C5_empty_mixture (blobs : List Blob) :
    ((blobs = [] ∨ (blobs.map Blob.parts).sum = 0) →
      mixture blobs = .error "Empty Mixture") ∧
    (0 < (blobs.map Blob.parts).sum → ∃ m, mixture blobs = .ok m) := by
  constructor
  · intro h
    have hz : (mixtureFold blobs).1 = 0 := by
      rw [mixtureFold_parts]
      rcases h with h | h
      · rw [h]
        simp
      · exact h
    rw [mixture, if_neg]
    rw [hz]
    norm_num
  · intro h
    have hpos : 0 < (mixtureFold blobs).1 := by rw [mixtureFold_parts]; exact h
    exact ⟨_, by rw [mixture, if_pos hpos]⟩

/-- C5 witness: the empty list fails, a single one-part blob succeeds. -/
theorem claim_C5_empty_mixture_witness :
    mixture [] = .error "Empty Mixture" ∧
    ∃ m, mixture [⟨⟨0, 0, 0⟩, ⟨1, 1⟩, 1⟩] = .ok m :=
  ⟨(claim_C5_empty_mixture []).1 (Or.inl rfl),
    (claim_C5_empty_mixture [⟨⟨0, 0, 0⟩, ⟨1, 1⟩, 1⟩]).2 (by norm_num)⟩

end EPaint

namespace EPaint

/-! ## Hue ordering, grey max-chroma, manipulator guards -/

/-- C9: hue comparison treats the grey (`NaN`-angle) sentinel explicitly:
a grey hue is `==`-equal to every grey hue; against any non-grey hue it is
`==`-unequal, `!=`-unequal and sorts strictly `<`-before it; a non-grey
hue is likewise `==`/`!=`-unequal to a grey hue.  (The external
`mathx.Angle` wrapper is modelled as the bare angle value, following the
spec's "equality/ordering compare angles".) -/
theorem claim_C9_hue_ordering (h g : Hue) :
    (h.isGrey → g.isGrey → hueEq h g) ∧
    (h.isGrey → ¬g.isGrey → ¬hueEq h g ∧ hueNe h g ∧ hueLt h g) ∧
    (¬h.isGrey → g.isGrey → ¬hueEq h g ∧ hueNe h g) := by
  rcases hh : h.angle with _ | x <;> rcases hg : g.angle with _ | y <;>
    simp [Hue.isGrey, hueEq, hueNe, hueLt, hueEqAux, hueLtAux, hh, hg]

/-- C9 witness: the grey hue against the hue at angle 1. -/
theorem claim_C9_hue_ordering_witness :
    (fromAngle none).isGrey ∧ ¬(fromAngle (some 1)).isGrey ∧
    hueEq (fromAngle none) (fromAngle none) ∧
    (¬hueEq (fromAngle none) (fromAngle (some 1)) ∧
      hueNe (fromAngle none) (fromAngle (some 1)) ∧
      hueLt (fromAngle none) (fromAngle (some 1))) ∧
    (¬hueEq (fromAngle (some 1)) (fromAngle none) ∧
      hueNe (fromAngle (some 1)) (fromAngle none)) := by
  have hg : (fromAngle none).isGrey := rfl
  have hng : ¬(fromAngle (some 1)).isGrey := by
    simp [Hue.isGrey, fromAngle, fromAngleG]
  exact ⟨hg, hng, (claim_C9_hue_ordering _ _).1 hg hg,
    (claim_C9_hue_ordering _ _).2.1 hg hng,
    (claim_C9_hue_ordering _ _).2.2 hng hg⟩

/-- C7 counterexample: for the grey hue, `max_chroma_for_value(1/5)` is
`3/5` (that is, `min(1, 3·value)`), not `min(1, value) = 1/5`. -/
theorem claim_C7_counterexample :
    (fromAngle none).isGrey ∧
    (fromAngle none).maxChromaForValue (1 / 5) = 3 / 5 ∧
    (fromAngle none).maxChromaForValue (1 / 5) ≠ min 1 (1 / 5) := by
  have hval : (fromAngle none).maxChromaForValue (1 / 5) = 3 / 5 := by
    show Hue.maxChromaForTotal _ _ = _
    unfold Hue.maxChromaForTotal
    show min 1 (1 / 5 * 3 / 1) = 3 / 5
    rw [min_eq_right (by norm_num)]
    norm_num
  refine ⟨rfl, hval, ?_⟩
  rw [hval, min_eq_right (by norm_num)]
  norm_num

/-- C7 (amended): for every grey hue and every value `v` in `[0, 1]`,
`max_chroma_for_value(v)` returns `min(1, 3·v)` (the grey branch divides
the requested component total `3·v·ONE` by `ONE`), not `min(1, v)`. -/
theorem claim_C7_grey_max_chroma (h : Hue) (hg : h.isGrey) (v : ℝ)
    (h0 : 0 ≤ v) (h1 : v ≤ 1) :
    h.maxChromaForValue v = min 1 (3 * v) := by
  unfold Hue.maxChromaForValue Hue.maxChromaForTotal
  rw [Hue.isGrey] at hg
  rw [hg]
  norm_num [mul_comm]

/-- C7 witness: the grey hue at `v = 1/2`. -/
theorem claim_C7_grey_max_chroma_witness :
    (fromAngle none).isGrey ∧ (0 : ℝ) ≤ 1 / 2 ∧ (1 / 2 : ℝ) ≤ 1 ∧
    (fromAngle none).maxChromaForValue (1 / 2) = min 1 (3 * (1 / 2)) :=
  ⟨rfl, by norm_num, by norm_num,
    claim_C7_grey_max_chroma (fromAngle none) rfl (1 / 2) (by norm_num) (by norm_num)⟩

/-- C4: at `value = 0` the manipulator's `decr_value` returns `False`
without mutating any state, for every delta; at `value = 1`, `incr_value`
likewise returns `False` and mutates nothing.  (All cached attributes are
recomputed from the internal rgb, so returning the state unchanged covers
the internal RGB, the cached value, hue, chroma and the remembered last
hue.) -/
theorem claim_C4_value_bounds (s : MState) (dv : ℝ) :
    (s.value = 0 → decrValue dv s = some (false, s)) ∧
    (s.value = 1 → incrValue dv s = some (false, s)) := by
  constructor
  · intro h
    unfold decrValue
    rw [if_pos h.le]
  · intro h
    unfold incrValue
    rw [if_pos h.ge]

/-- C4 witness: the manipulator at pure black and pure white. -/
theorem claim_C4_value_bounds_witness :
    (initState ⟨0, 0, 0⟩).value = 0 ∧ (initState ⟨1, 1, 1⟩).value = 1 ∧
    decrValue 5 (initState ⟨0, 0, 0⟩) = some (false, initState ⟨0, 0, 0⟩) ∧
    incrValue 5 (initState ⟨1, 1, 1⟩) = some (false, initState ⟨1, 1, 1⟩) := by
  have h0 : (initState (⟨0, 0, 0⟩ : RGBR)).value = 0 := by
    norm_num [initState, MState.value, RGBR.value]
  have h1 : (initState (⟨1, 1, 1⟩ : RGBR)).value = 1 := by
    norm_num [initState, MState.value, RGBR.value]
  exact ⟨h0, h1, (claim_C4_value_bounds _ 5).1 h0, (claim_C4_value_bounds _ 5).2 h1⟩

end EPaint

namespace EPaint

/-- C8: on a grey colour (here `RGB16(1000, 1000, 1000)`), the source of
`HCV.zero_chroma_rgb` executes `return self.__value_rgb`; no attribute
`_HCV__value_rgb` exists (the property is `value_rgb`) and the
`__getattr__` fallback cannot supply it, so the call raises
`AttributeError` (modelled: `none`) instead of returning the value-grey
`WHITE * value` stated by the spec.  The non-grey branches do follow the
spec's closed form. -/
theorem claim_C8_zero_chroma_grey_bug :
    (HCV16.mk ⟨1000, 1000, 1000⟩).hue.isGrey ∧
    HCV16.zeroChromaRGB (HCV16.mk ⟨1000, 1000, 1000⟩) = none := by
  have hxy : (HCV16.mk ⟨1000, 1000, 1000⟩).xy = (0, 0) := by
    unfold HCV16.xy fromRGB RGBZ.toR COS120
    refine Prod.ext ?_ ?_ <;> dsimp only <;> push_cast <;> ring
  have hhue : (HCV16.mk ⟨1000, 1000, 1000⟩).hue = fromAngle16 none := by
    unfold HCV16.hue
    rw [hxy]
    unfold getAngle
    rw [if_pos ⟨rfl, rfl⟩]
  constructor
  · rw [Hue.isGrey, hhue]
    rfl
  · unfold HCV16.zeroChromaRGB
    rw [hhue]
    rfl

end EPaint

namespace EPaint

open Real

/-! ## Fixed-precision rotation: value conservation (C3) -/


theorem pyint_of_nonneg {x : ℝ} (h : 0 ≤ x) : pyint x = ⌊x⌋ := by
  unfold pyint
  rw [if_neg (not_lt.mpr h)]

theorem pyround_abs {x : ℝ} (h : 0 ≤ x) : |((pyround x : ℤ) : ℝ) - x| ≤ 1 / 2 := by
  unfold pyround
  rw [pyint_of_nonneg (by positivity)]
  rw [abs_le]
  constructor
  · have := Int.lt_floor_add_one (x + 1 / 2)
    linarith
  · have := Int.floor_le (x + 1 / 2)
    linarith

theorem pyround_sum3 (u v w : ℝ) (hu : 0 ≤ u) (hv : 0 ≤ v) (hw : 0 ≤ w) :
    |((pyround u + pyround v + pyround w : ℤ) : ℝ) - (u + v + w)| ≤ 3 / 2 := by
  have h1 := abs_le.mp (pyround_abs hu)
  have h2 := abs_le.mp (pyround_abs hv)
  have h3 := abs_le.mp (pyround_abs hw)
  rw [abs_le]
  push_cast
  constructor <;> linarith [h1.1, h1.2, h2.1, h2.2, h3.1, h3.2]

theorem calcKs_good (t : ℝ) (h1 : 0 < t) (h2 : t ≤ 2 * π / 3) :
    ∃ k1 k2 : ℝ, calcKs t = some (k1, k2) ∧ 0 ≤ k1 ∧ 0 ≤ k2 ∧ k1 + k2 = 1 := by
  have hpi : t < π := lt_of_le_of_lt h2 (by linarith [pi_pos])
  have ha : 0 < Real.sin t := Real.sin_pos_of_pos_of_lt_pi h1 hpi
  have hb : 0 ≤ Real.sin (2 * π / 3 - t) := by
    apply Real.sin_nonneg_of_nonneg_of_le_pi
    · linarith
    · linarith [pi_pos]
  have hab : 0 < Real.sin t + Real.sin (2 * π / 3 - t) := by linarith
  refine ⟨Real.sin (2 * π / 3 - t) / (Real.sin t + Real.sin (2 * π / 3 - t)),
    Real.sin t / (Real.sin t + Real.sin (2 * π / 3 - t)), ?_, by positivity, by positivity, ?_⟩
  · unfold calcKs
    rw [if_neg (ne_of_gt hab)]
  · rw [div_add_div_same, add_comm, div_self (ne_of_gt hab)]

theorem value8_bound (c : RGBZ) (u v w : ℝ) (hu : 0 ≤ u) (hv : 0 ≤ v) (hw : 0 ≤ w)
    (hsum : u + v + w = ((c.red + c.green + c.blue : ℤ) : ℝ)) :
    |(RGBZ.mk (pyround u) (pyround v) (pyround w)).value8 - c.value8| ≤ 1 / 510 := by
  have h := pyround_sum3 u v w hu hv hw
  rw [hsum] at h
  have hZ : 2 * |pyround u + pyround v + pyround w - (c.red + c.green + c.blue)| ≤ 3 := by
    have hr : ((2 * |pyround u + pyround v + pyround w - (c.red + c.green + c.blue)| : ℤ) : ℝ) ≤ 3 := by
      push_cast at h ⊢
      have h' := abs_le.mp h
      rcases abs_cases ((pyround u : ℝ) + (pyround v : ℝ) + (pyround w : ℝ) -
          ((c.red : ℝ) + (c.green : ℝ) + (c.blue : ℝ))) with hc | hc <;>
        rw [hc.1] <;> linarith [h'.1, h'.2]
    exact_mod_cast hr
  have hQ : |((pyround u : ℤ) : ℚ) + ((pyround v : ℤ) : ℚ) + ((pyround w : ℤ) : ℚ) -
      (((c.red : ℤ) : ℚ) + ((c.green : ℤ) : ℚ) + ((c.blue : ℤ) : ℚ))| ≤ 3 / 2 := by
    have h2 : 2 * ((|pyround u + pyround v + pyround w - (c.red + c.green + c.blue)| : ℤ) : ℚ) ≤ 3 := by
      exact_mod_cast hZ
    push_cast at h2
    linarith [h2]
  unfold RGBZ.value8
  dsimp only
  rw [div_sub_div_same, abs_div]
  rw [abs_of_pos (show (0 : ℚ) < 765 by norm_num)]
  rw [div_le_iff (by norm_num)]
  push_cast at hQ ⊢
  calc |(pyround u : ℚ) + (pyround v : ℚ) + (pyround w : ℚ) -
      ((c.red : ℚ) + (c.green : ℚ) + (c.blue : ℚ))| ≤ 3 / 2 := hQ
    _ ≤ 1 / 510 * 765 := by norm_num

/-- C3 (amended): for every 8-bit RGB triple with channels in `[0, 255]`
and exactly 1 or 3 non-zero channels, and every rotation `δ` with
`|δ| ≤ π`, `rotated(δ)` succeeds and returns a triple whose value (mean of
the three channels) equals the original's to within half a rounding unit,
`1/(2·ONE) = 1/510` — not exactly, because each channel is rounded with
`int(x + 0.5)`. -/
theorem claim_C3_rotation (c : RGBZ) (δ : ℝ)
    (hr0 : 0 ≤ c.red) (hr1 : c.red ≤ 255) (hg0 : 0 ≤ c.green) (hg1 : c.green ≤ 255)
    (hb0 : 0 ≤ c.blue) (hb1 : c.blue ≤ 255)
    (hnz : c.nonZeroComponents = 1 ∨ c.nonZeroComponents = 3)
    (hδ : |δ| ≤ π) :
    ∃ out, rotated8 c δ = some out ∧ |out.value8 - c.value8| ≤ 1 / 510 := by
  obtain ⟨hδ1, hδ2⟩ := abs_le.mp hδ
  have hR : (0 : ℝ) ≤ (c.red : ℝ) := by exact_mod_cast hr0
  have hG : (0 : ℝ) ≤ (c.green : ℝ) := by exact_mod_cast hg0
  have hB : (0 : ℝ) ≤ (c.blue : ℝ) := by exact_mod_cast hb0
  rcases lt_trichotomy 0 δ with hpos | heq | hneg
  · by_cases hbig : 2 * π / 3 < δ
    · obtain ⟨k1, k2, hk, hk1, hk2, hk12⟩ :=
        calcKs_good (δ - 2 * π / 3) (by linarith) (by linarith [pi_pos])
      unfold rotated8
      rw [if_pos hpos, if_pos hbig, hk]
      simp only [Option.map_some']
      refine ⟨_, rfl, ?_⟩
      apply value8_bound c _ _ _
        (add_nonneg (mul_nonneg hB hk1) (mul_nonneg hG hk2))
        (add_nonneg (mul_nonneg hR hk1) (mul_nonneg hB hk2))
        (add_nonneg (mul_nonneg hG hk1) (mul_nonneg hR hk2))
      push_cast
      linear_combination ((c.red : ℝ) + (c.green : ℝ) + (c.blue : ℝ)) * hk12
    · obtain ⟨k1, k2, hk, hk1, hk2, hk12⟩ :=
        calcKs_good δ hpos (not_lt.mp hbig)
      unfold rotated8
      rw [if_pos hpos, if_neg hbig, hk]
      simp only [Option.map_some']
      refine ⟨_, rfl, ?_⟩
      apply value8_bound c _ _ _
        (add_nonneg (mul_nonneg hR hk1) (mul_nonneg hB hk2))
        (add_nonneg (mul_nonneg hG hk1) (mul_nonneg hR hk2))
        (add_nonneg (mul_nonneg hB hk1) (mul_nonneg hG hk2))
      push_cast
      linear_combination ((c.red : ℝ) + (c.green : ℝ) + (c.blue : ℝ)) * hk12
  · subst heq
    refine ⟨c, ?_, by simp⟩
    unfold rotated8
    norm_num
  · by_cases hbig : δ < -(2 * π / 3)
    · obtain ⟨k1, k2, hk, hk1, hk2, hk12⟩ :=
        calcKs_good (|δ| - 2 * π / 3) (by rw [abs_of_neg hneg]; linarith) (by rw [abs_of_neg hneg]; linarith [pi_pos])
      unfold rotated8
      rw [if_neg (by linarith), if_pos hneg, if_pos hbig, hk]
      simp only [Option.map_some']
      refine ⟨_, rfl, ?_⟩
      apply value8_bound c _ _ _
        (add_nonneg (mul_nonneg hG hk1) (mul_nonneg hB hk2))
        (add_nonneg (mul_nonneg hB hk1) (mul_nonneg hR hk2))
        (add_nonneg (mul_nonneg hR hk1) (mul_nonneg hG hk2))
      push_cast
      linear_combination ((c.red : ℝ) + (c.green : ℝ) + (c.blue : ℝ)) * hk12
    · obtain ⟨k1, k2, hk, hk1, hk2, hk12⟩ :=
        calcKs_good (|δ|) (by rw [abs_of_neg hneg]; linarith) (by rw [abs_of_neg hneg]; linarith)
      unfold rotated8
      rw [if_neg (by linarith), if_pos hneg, if_neg hbig, hk]
      simp only [Option.map_some']
      refine ⟨_, rfl, ?_⟩
      apply value8_bound c _ _ _
        (add_nonneg (mul_nonneg hR hk1) (mul_nonneg hG hk2))
        (add_nonneg (mul_nonneg hG hk1) (mul_nonneg hB hk2))
        (add_nonneg (mul_nonneg hB hk1) (mul_nonneg hR hk2))
      push_cast
      linear_combination ((c.red : ℝ) + (c.green : ℝ) + (c.blue : ℝ)) * hk12

theorem pyround_eval (x : ℝ) (n : ℤ) (h0 : 0 ≤ x + 1 / 2) (hl : (n : ℝ) ≤ x + 1 / 2)
    (hu : x + 1 / 2 < n + 1) : pyround x = n := by
  unfold pyround
  rw [pyint_of_nonneg h0, Int.floor_eq_iff]
  exact ⟨hl, by exact_mod_cast hu⟩

/-- C3 counterexample: `(21, 0, 0)` has exactly one non-zero channel, yet
rotating it by `π/3` (where `k1 = k2 = 1/2`) yields `(11, 11, 0)` — both
half-integer channels round up — whose value `22/765` differs from the
original `21/765`: the value is not held *exactly* constant. -/
theorem claim_C3_counterexample :
    (RGBZ.mk 21 0 0).nonZeroComponents = 1 ∧ |π / 3| ≤ π ∧
    rotated8 ⟨21, 0, 0⟩ (π / 3) = some ⟨11, 11, 0⟩ ∧
    (RGBZ.mk 11 11 0).value8 ≠ (RGBZ.mk 21 0 0).value8 := by
  have hs : 0 < Real.sin (π / 3) := by
    rw [Real.sin_pi_div_three]
    positivity
  refine ⟨by norm_num [RGBZ.nonZeroComponents], ?_, ?_, ?_⟩
  · rw [abs_of_nonneg (by positivity)]
    linarith [pi_pos]
  · unfold rotated8
    rw [if_pos (by positivity), if_neg (by linarith [pi_pos])]
    unfold calcKs
    rw [show 2 * π / 3 - π / 3 = π / 3 by ring]
    rw [if_neg (by intro hc; linarith)]
    simp only [Option.map_some']
    have hk : Real.sin (π / 3) / (Real.sin (π / 3) + Real.sin (π / 3)) = 1 / 2 := by
      rw [div_eq_iff (by linarith)]
      ring
    rw [Option.some.injEq, RGBZ.mk.injEq]
    rw [hk]
    refine ⟨?_, ?_, ?_⟩
    · apply pyround_eval <;> push_cast <;> norm_num
    · apply pyround_eval <;> push_cast <;> norm_num
    · apply pyround_eval <;> push_cast <;> norm_num
  · norm_num [RGBZ.value8]

/-- C3 witness: the amended bound applied at `rgb = (255, 0, 0)` and
rotation `0`. -/
theorem claim_C3_rotation_witness :
    (RGBZ.mk 255 0 0).nonZeroComponents = 1 ∧ |(0 : ℝ)| ≤ π ∧
    ∃ out, rotated8 ⟨255, 0, 0⟩ 0 = some out ∧
      |out.value8 - (RGBZ.mk 255 0 0).value8| ≤ 1 / 510 := by
  refine ⟨by norm_num [RGBZ.nonZeroComponents], by simp [pi_nonneg], ?_⟩
  exact claim_C3_rotation ⟨255, 0, 0⟩ 0 (by norm_num) (by norm_num) (by norm_num)
    (by norm_num) (by norm_num) (by norm_num)
    (Or.inl (by norm_num [RGBZ.nonZeroComponents])) (by simp [pi_nonneg])

end EPaint

namespace EPaint

open Real

/-! ## Geometry of the colour hexagon: simplest rgb, pure hues -/

theorem SIN120_eq : SIN120 = Real.sqrt 3 / 2 := by
  unfold SIN120
  rw [show 2 * π / 3 = π - π / 3 by ring, Real.sin_pi_sub, Real.sin_pi_div_three]

theorem SIN120_pos : 0 < SIN120 := by
  rw [SIN120_eq]
  positivity

theorem SIN120_ne : SIN120 ≠ 0 := ne_of_gt SIN120_pos

theorem fromRGB_simplest (xy : ℝ × ℝ) : fromRGB (getSimplestRGB xy) = xy := by
  obtain ⟨x, y⟩ := xy
  unfold getSimplestRGB fromRGB COS120
  dsimp only
  split_ifs with h1 h2 h3 h4 h5 <;>
    refine Prod.ext ?_ ?_ <;> dsimp only <;>
    first
      | linarith
      | (field_simp [SIN120_ne]; ring_nf)
      | (field_simp [SIN120_ne])

theorem simplest_fromRGB (c : RGBR) :
    getSimplestRGB (fromRGB c) = ⟨c.red - c.minC, c.green - c.minC, c.blue - c.minC⟩ := by
  obtain ⟨r, g, b⟩ := c
  unfold getSimplestRGB fromRGB RGBR.minC COS120
  dsimp only
  have hBeq : (SIN120 * g - SIN120 * b) / SIN120 = g - b := by
    field_simp [SIN120_ne]
    ring
  have haeq : (r + -(1 / 2) * g + -(1 / 2) * b) / -(1 / 2) = -2 * r + g + b := by
    ring
  rcases lt_trichotomy b g with hgb | hgb | hgb
  · have hy : 0 < SIN120 * g - SIN120 * b := by nlinarith [SIN120_pos]
    rw [if_pos hy, hBeq, haeq]
    rcases lt_or_le r b with hrb | hrb
    · rw [if_pos (by linarith), min_eq_right hgb.le, min_eq_left (by linarith : r ≤ b),
        RGBR.mk.injEq]
      refine ⟨by ring, by ring, by ring⟩
    · rw [if_neg (by linarith), min_eq_right hgb.le, min_eq_right hrb, RGBR.mk.injEq]
      refine ⟨by ring, by ring, by ring⟩
  · subst hgb
    rw [if_neg (by intro hc; nlinarith), if_neg (by intro hc; nlinarith)]
    rcases lt_or_le r b with hrb | hrb
    · rw [if_pos (by linarith), min_self, min_eq_left hrb.le, RGBR.mk.injEq]
      refine ⟨by ring, by ring, by ring⟩
    · rw [if_neg (by intro hc; linarith), min_self, min_eq_right hrb, RGBR.mk.injEq]
      refine ⟨by ring, by ring, by ring⟩
  · have hy : SIN120 * g - SIN120 * b < 0 := by nlinarith [SIN120_pos]
    rw [if_neg (by intro hc; linarith), if_pos hy, hBeq, haeq]
    rcases lt_or_le r g with hrg | hrg
    · rw [if_pos (by linarith), min_eq_left hgb.le, min_eq_left (by linarith : r ≤ g),
        RGBR.mk.injEq]
      refine ⟨by ring, by ring, by ring⟩
    · rw [if_neg (by intro hc; linarith), min_eq_left hgb.le, min_eq_right hrg, RGBR.mk.injEq]
      refine ⟨by ring, by ring, by ring⟩

theorem COS120_eq : COS120 = -(1 / 2) := rfl

theorem sin_hex_identity (φ : ℝ) :
    Real.sin φ ^ 2 - Real.sin φ * Real.sin (2 * π / 3 - φ) + Real.sin (2 * π / 3 - φ) ^ 2 = 3 / 4 := by
  rw [Real.sin_sub, show Real.sin (2 * π / 3) = Real.sqrt 3 / 2 by
      rw [show 2 * π / 3 = π - π / 3 by ring, Real.sin_pi_sub, Real.sin_pi_div_three],
    show Real.cos (2 * π / 3) = -(1 / 2) by
      rw [show 2 * π / 3 = π - π / 3 by ring, Real.cos_pi_sub, Real.cos_pi_div_three]]
  linear_combination (3 / 4) * Real.sin_sq_add_cos_sq φ +
    (Real.cos φ ^ 2 / 4) * Real.sq_sqrt (show (0 : ℝ) ≤ 3 by norm_num)

theorem two_sin_comp (φ : ℝ) :
    2 * Real.sin (2 * π / 3 - φ) = Real.sqrt 3 * Real.cos φ + Real.sin φ := by
  rw [Real.sin_sub, show Real.sin (2 * π / 3) = Real.sqrt 3 / 2 by
      rw [show 2 * π / 3 = π - π / 3 by ring, Real.sin_pi_sub, Real.sin_pi_div_three],
    show Real.cos (2 * π / 3) = -(1 / 2) by
      rw [show 2 * π / 3 = π - π / 3 by ring, Real.cos_pi_sub, Real.cos_pi_div_three]]
  ring

theorem otherFacts (t : ℝ) (h0 : 0 ≤ t) (h1 : t ≤ π / 3) :
    0 < Real.sin (2 * π / 3 - t) ∧ 0 ≤ calcOtherG 1 id t ∧ calcOtherG 1 id t ≤ 1 ∧
    calcOtherG 1 id t * Real.sin (2 * π / 3 - t) = Real.sin t := by
  have hS : 0 < Real.sin (2 * π / 3 - t) := by
    apply Real.sin_pos_of_pos_of_lt_pi
    · linarith [pi_pos]
    · linarith [pi_pos]
  have hs0 : 0 ≤ Real.sin t := by
    apply Real.sin_nonneg_of_nonneg_of_le_pi h0
    linarith [pi_pos]
  have hmono : Real.sin t ≤ Real.sin (2 * π / 3 - t) := by
    have hd : Real.sin (2 * π / 3 - t) - Real.sin t = Real.sin (π / 3 - t) := by
      rw [Real.sin_sub_sin]
      rw [show (2 * π / 3 - t - t) / 2 = π / 3 - t by ring, show (2 * π / 3 - t + t) / 2 = π / 3 by ring]
      rw [Real.cos_pi_div_three]
      ring
    have : 0 ≤ Real.sin (π / 3 - t) := by
      apply Real.sin_nonneg_of_nonneg_of_le_pi
      · linarith
      · linarith [pi_pos]
    linarith
  unfold calcOtherG
  refine ⟨hS, ?_, ?_, ?_⟩
  · simp only [id]
    positivity
  · simp only [id, one_mul]
    rw [div_le_one hS]
    exact hmono
  · simp only [id, one_mul]
    exact div_mul_cancel₀ _ (ne_of_gt hS)

theorem cc_sqrt_form (s S o : ℝ) (hS : 0 < S) (hident : s ^ 2 - s * S + S ^ 2 = 3 / 4)
    (ho : o * S = s) :
    Real.sqrt (1 - o + o ^ 2) = Real.sqrt 3 / (2 * S) := by
  have ho' : o = s / S := by
    field_simp
    linarith [ho]
  have h3 : Real.sqrt 3 ^ 2 = 3 := Real.sq_sqrt (by norm_num)
  have harg : 1 - o + o ^ 2 = (Real.sqrt 3 / (2 * S)) ^ 2 := by
    rw [ho']
    field_simp
    linear_combination (4 * S ^ 3) * hident
  rw [harg, Real.sqrt_sq (by positivity)]

theorem one_sub_add_sq_pos (o : ℝ) : 0 < 1 - o + o ^ 2 := by
  nlinarith [sq_nonneg (o - 1 / 2)]

theorem ccOf_one (o : ℝ) : ccOf 1 o = 1 / Real.sqrt (1 - o + o ^ 2) := by
  unfold ccOf
  rw [show (1 : ℝ) * 1 + o * o - 1 * o = 1 - o + o ^ 2 by ring]
  split_ifs with h
  · rcases h with h | h
    · rw [← h]
      norm_num [Real.sqrt_one]
    · rw [h]
      norm_num [Real.sqrt_one]
  · rfl

theorem ccOf_one_pos (o : ℝ) : 0 < ccOf 1 o := by
  rw [ccOf_one]
  have := one_sub_add_sq_pos o
  positivity

theorem fromAngle_sector1 (θ : ℝ) (h0 : 0 ≤ θ) (h1 : θ ≤ π / 3) :
    fromAngle (some θ) =
      ⟨some (0, 1, 2), calcOtherG 1 id θ, some θ, ccOf 1 (calcOtherG 1 id θ)⟩ := by
  unfold fromAngle fromAngleG
  dsimp only
  rw [abs_of_nonneg h0]
  split_ifs with hc1 hc2 <;> first | rfl | (exfalso; linarith)

theorem fromAngle_sector1n (θ : ℝ) (h0 : θ < 0) (h1 : -θ ≤ π / 3) :
    fromAngle (some θ) =
      ⟨some (0, 2, 1), calcOtherG 1 id (-θ), some θ, ccOf 1 (calcOtherG 1 id (-θ))⟩ := by
  unfold fromAngle fromAngleG
  dsimp only
  rw [abs_of_neg h0]
  split_ifs with hc1 hc2 <;> first | rfl | (exfalso; linarith)

theorem fromAngle_sector2 (θ : ℝ) (h0 : π / 3 < θ) (h1 : θ ≤ 2 * π / 3) :
    fromAngle (some θ) =
      ⟨some (1, 0, 2), calcOtherG 1 id (2 * π / 3 - θ), some θ,
        ccOf 1 (calcOtherG 1 id (2 * π / 3 - θ))⟩ := by
  unfold fromAngle fromAngleG
  dsimp only
  rw [abs_of_nonneg (by linarith [pi_pos] : (0 : ℝ) ≤ θ)]
  split_ifs with hc1 hc2 hc3 <;> first | rfl | (exfalso; linarith [pi_pos])

theorem fromAngle_sector2n (θ : ℝ) (h0 : -θ > π / 3) (h1 : -θ ≤ 2 * π / 3) :
    fromAngle (some θ) =
      ⟨some (2, 0, 1), calcOtherG 1 id (2 * π / 3 - -θ), some θ,
        ccOf 1 (calcOtherG 1 id (2 * π / 3 - -θ))⟩ := by
  unfold fromAngle fromAngleG
  dsimp only
  rw [abs_of_neg (by linarith [pi_pos] : θ < 0)]
  split_ifs with hc1 hc2 hc3 <;> first | rfl | (exfalso; linarith [pi_pos])

theorem fromAngle_sector3 (θ : ℝ) (h0 : 2 * π / 3 < θ) :
    fromAngle (some θ) =
      ⟨some (1, 2, 0), calcOtherG 1 id (θ - 2 * π / 3), some θ,
        ccOf 1 (calcOtherG 1 id (θ - 2 * π / 3))⟩ := by
  unfold fromAngle fromAngleG
  dsimp only
  rw [abs_of_nonneg (by linarith [pi_pos] : (0 : ℝ) ≤ θ)]
  split_ifs with hc1 hc2 hc3 <;> first | rfl | (exfalso; linarith [pi_pos])

theorem fromAngle_sector3n (θ : ℝ) (h0 : 2 * π / 3 < -θ) :
    fromAngle (some θ) =
      ⟨some (2, 1, 0), calcOtherG 1 id (-θ - 2 * π / 3), some θ,
        ccOf 1 (calcOtherG 1 id (-θ - 2 * π / 3))⟩ := by
  unfold fromAngle fromAngleG
  dsimp only
  rw [abs_of_neg (by linarith [pi_pos] : θ < 0)]
  split_ifs with hc1 hc2 hc3 <;> first | rfl | (exfalso; linarith [pi_pos])

theorem sqrt3_pos : 0 < Real.sqrt 3 := Real.sqrt_pos.mpr (by norm_num)

theorem sqrt3_ne : Real.sqrt 3 ≠ 0 := ne_of_gt sqrt3_pos

theorem fromAngle_cc_eq (one : ℝ) (rnd : ℝ → ℝ) (θ : ℝ) :
    (fromAngleG one rnd (some θ)).chromaCorrection =
      ccOf one ((fromAngleG one rnd (some θ)).other) := rfl

theorem fromAngle_pure_s1 (θ : ℝ) (h0 : 0 ≤ θ) (h1 : θ ≤ π / 3) :
    fromRGB (pureRGB (fromAngle (some θ))) =
      (1 / (fromAngle (some θ)).chromaCorrection * Real.cos θ,
        1 / (fromAngle (some θ)).chromaCorrection * Real.sin θ) := by
  obtain ⟨hS, ho0, ho1, hoS⟩ := otherFacts θ h0 h1
  rw [fromAngle_sector1 θ h0 h1]
  set o := calcOtherG 1 id θ with ho
  set S := Real.sin (2 * π / 3 - θ) with hSdef
  have hsq : Real.sqrt (1 - o + o ^ 2) = Real.sqrt 3 / (2 * S) :=
    cc_sqrt_form (Real.sin θ) S o hS (sin_hex_identity θ) hoS
  have hccval : ccOf 1 o = 2 * S / Real.sqrt 3 := by
    rw [ccOf_one, hsq, one_div_div]
  show fromRGB ⟨1, o, 0⟩ = _
  unfold fromRGB
  dsimp only
  rw [hccval, one_div_div, COS120_eq, SIN120_eq]
  have htwo := two_sin_comp θ
  refine Prod.ext ?_ ?_ <;> dsimp only
  · field_simp
    linear_combination 2 * htwo - 2 * hoS
  · field_simp
    linear_combination 2 * Real.sqrt 3 * hoS

theorem sin_2pi3 : Real.sin (2 * π / 3) = Real.sqrt 3 / 2 := by
  rw [show 2 * π / 3 = π - π / 3 by ring, Real.sin_pi_sub, Real.sin_pi_div_three]

theorem cos_2pi3 : Real.cos (2 * π / 3) = -(1 / 2) := by
  rw [show 2 * π / 3 = π - π / 3 by ring, Real.cos_pi_sub, Real.cos_pi_div_three]

theorem fromAngle_pure_s2 (θ : ℝ) (h0 : π / 3 < θ) (h1 : θ ≤ 2 * π / 3) :
    fromRGB (pureRGB (fromAngle (some θ))) =
      (1 / (fromAngle (some θ)).chromaCorrection * Real.cos θ,
        1 / (fromAngle (some θ)).chromaCorrection * Real.sin θ) := by
  obtain ⟨hS, ho0, ho1, hoS⟩ := otherFacts (2 * π / 3 - θ) (by linarith) (by linarith)
  rw [show 2 * π / 3 - (2 * π / 3 - θ) = θ by ring] at hS hoS
  rw [fromAngle_sector2 θ h0 h1]
  set o := calcOtherG 1 id (2 * π / 3 - θ) with ho
  have hsq : Real.sqrt (1 - o + o ^ 2) = Real.sqrt 3 / (2 * Real.sin θ) :=
    cc_sqrt_form (Real.sin (2 * π / 3 - θ)) (Real.sin θ) o hS
      (by linear_combination sin_hex_identity θ) hoS
  have hccval : ccOf 1 o = 2 * Real.sin θ / Real.sqrt 3 := by
    rw [ccOf_one, hsq, one_div_div]
  show fromRGB ⟨o, 1, 0⟩ = _
  unfold fromRGB
  dsimp only
  rw [hccval, one_div_div, COS120_eq, SIN120_eq]
  have htwo := two_sin_comp θ
  refine Prod.ext ?_ ?_ <;> dsimp only
  · field_simp
    linear_combination 4 * hoS + 2 * htwo
  · field_simp
    ring

theorem fromAngle_pure_s3 (θ : ℝ) (h0 : 2 * π / 3 < θ) (h1 : θ ≤ π) :
    fromRGB (pureRGB (fromAngle (some θ))) =
      (1 / (fromAngle (some θ)).chromaCorrection * Real.cos θ,
        1 / (fromAngle (some θ)).chromaCorrection * Real.sin θ) := by
  obtain ⟨hS, ho0, ho1, hoS⟩ := otherFacts (θ - 2 * π / 3) (by linarith) (by linarith)
  rw [fromAngle_sector3 θ h0]
  set o := calcOtherG 1 id (θ - 2 * π / 3) with ho
  set S := Real.sin (2 * π / 3 - (θ - 2 * π / 3)) with hSdef
  have hsq : Real.sqrt (1 - o + o ^ 2) = Real.sqrt 3 / (2 * S) :=
    cc_sqrt_form (Real.sin (θ - 2 * π / 3)) S o hS (sin_hex_identity (θ - 2 * π / 3)) hoS
  have hccval : ccOf 1 o = 2 * S / Real.sqrt 3 := by
    rw [ccOf_one, hsq, one_div_div]
  have hplus : S + Real.sin (θ - 2 * π / 3) = -(Real.sqrt 3 * Real.cos θ) := by
    rw [hSdef, show 2 * π / 3 - (θ - 2 * π / 3) = π - (θ - π / 3) by ring, Real.sin_pi_sub,
      Real.sin_sub, Real.sin_sub, Real.cos_pi_div_three, Real.sin_pi_div_three, cos_2pi3, sin_2pi3]
    ring
  have hminus : S - Real.sin (θ - 2 * π / 3) = Real.sin θ := by
    rw [hSdef, show 2 * π / 3 - (θ - 2 * π / 3) = π - (θ - π / 3) by ring, Real.sin_pi_sub,
      Real.sin_sub, Real.sin_sub, Real.cos_pi_div_three, Real.sin_pi_div_three, cos_2pi3, sin_2pi3]
    ring
  show fromRGB ⟨0, 1, o⟩ = _
  unfold fromRGB
  dsimp only
  rw [hccval, one_div_div, COS120_eq, SIN120_eq]
  refine Prod.ext ?_ ?_ <;> dsimp only
  · field_simp
    linear_combination (-2) * hplus - 2 * hoS
  · field_simp
    linear_combination 2 * Real.sqrt 3 * hminus - 2 * Real.sqrt 3 * hoS

theorem fromAngle_pure_s1n (θ : ℝ) (h0 : θ < 0) (h1 : -θ ≤ π / 3) :
    fromRGB (pureRGB (fromAngle (some θ))) =
      (1 / (fromAngle (some θ)).chromaCorrection * Real.cos θ,
        1 / (fromAngle (some θ)).chromaCorrection * Real.sin θ) := by
  obtain ⟨hS, ho0, ho1, hoS⟩ := otherFacts (-θ) (by linarith) h1
  rw [fromAngle_sector1n θ h0 h1]
  set o := calcOtherG 1 id (-θ) with ho
  set S := Real.sin (2 * π / 3 - -θ) with hSdef
  have hsq : Real.sqrt (1 - o + o ^ 2) = Real.sqrt 3 / (2 * S) :=
    cc_sqrt_form (Real.sin (-θ)) S o hS (sin_hex_identity (-θ)) hoS
  have hccval : ccOf 1 o = 2 * S / Real.sqrt 3 := by
    rw [ccOf_one, hsq, one_div_div]
  rw [Real.sin_neg] at hoS
  have htwo := two_sin_comp (-θ)
  rw [Real.sin_neg, Real.cos_neg] at htwo
  show fromRGB ⟨1, 0, o⟩ = _
  unfold fromRGB
  dsimp only
  rw [hccval, one_div_div, COS120_eq, SIN120_eq]
  refine Prod.ext ?_ ?_ <;> dsimp only
  · field_simp
    linear_combination 2 * htwo - 2 * hoS
  · field_simp
    linear_combination (-2) * Real.sqrt 3 * hoS

theorem fromAngle_pure_s2n (θ : ℝ) (h0 : π / 3 < -θ) (h1 : -θ ≤ 2 * π / 3) :
    fromRGB (pureRGB (fromAngle (some θ))) =
      (1 / (fromAngle (some θ)).chromaCorrection * Real.cos θ,
        1 / (fromAngle (some θ)).chromaCorrection * Real.sin θ) := by
  obtain ⟨hS, ho0, ho1, hoS⟩ := otherFacts (2 * π / 3 - -θ) (by linarith) (by linarith)
  rw [show 2 * π / 3 - (2 * π / 3 - -θ) = -θ by ring] at hS hoS
  rw [fromAngle_sector2n θ h0 h1]
  set o := calcOtherG 1 id (2 * π / 3 - -θ) with ho
  have hsq : Real.sqrt (1 - o + o ^ 2) = Real.sqrt 3 / (2 * Real.sin (-θ)) :=
    cc_sqrt_form (Real.sin (2 * π / 3 - -θ)) (Real.sin (-θ)) o hS
      (by linear_combination sin_hex_identity (-θ)) hoS
  have hccval : ccOf 1 o = 2 * Real.sin (-θ) / Real.sqrt 3 := by
    rw [ccOf_one, hsq, one_div_div]
  rw [Real.sin_neg] at hS hoS hccval
  have hsne : Real.sin θ ≠ 0 := by
    intro hc
    rw [hc] at hS
    norm_num at hS
  have htwo := two_sin_comp (-θ)
  rw [Real.sin_neg, Real.cos_neg] at htwo
  show fromRGB ⟨o, 0, 1⟩ = _
  unfold fromRGB
  dsimp only
  rw [hccval, one_div_div, COS120_eq, SIN120_eq]
  refine Prod.ext ?_ ?_ <;> dsimp only
  · field_simp
    linear_combination 2 * htwo + 4 * hoS
  · field_simp
    ring

theorem fromAngle_pure_s3n (θ : ℝ) (h0 : 2 * π / 3 < -θ) (h1 : -θ ≤ π) :
    fromRGB (pureRGB (fromAngle (some θ))) =
      (1 / (fromAngle (some θ)).chromaCorrection * Real.cos θ,
        1 / (fromAngle (some θ)).chromaCorrection * Real.sin θ) := by
  obtain ⟨hS, ho0, ho1, hoS⟩ := otherFacts (-θ - 2 * π / 3) (by linarith) (by linarith)
  rw [fromAngle_sector3n θ h0]
  set o := calcOtherG 1 id (-θ - 2 * π / 3) with ho
  set S := Real.sin (2 * π / 3 - (-θ - 2 * π / 3)) with hSdef
  have hsq : Real.sqrt (1 - o + o ^ 2) = Real.sqrt 3 / (2 * S) :=
    cc_sqrt_form (Real.sin (-θ - 2 * π / 3)) S o hS (sin_hex_identity (-θ - 2 * π / 3)) hoS
  have hccval : ccOf 1 o = 2 * S / Real.sqrt 3 := by
    rw [ccOf_one, hsq, one_div_div]
  have hplus : S + Real.sin (-θ - 2 * π / 3) = -(Real.sqrt 3 * Real.cos θ) := by
    rw [hSdef, show 2 * π / 3 - (-θ - 2 * π / 3) = π - (-θ - π / 3) by ring, Real.sin_pi_sub,
      show -θ - π / 3 = -θ - π / 3 from rfl, Real.sin_sub, Real.sin_sub,
      Real.cos_pi_div_three, Real.sin_pi_div_three, cos_2pi3, sin_2pi3,
      Real.sin_neg, Real.cos_neg]
    ring
  have hminus : Real.sin (-θ - 2 * π / 3) - S = Real.sin θ := by
    rw [hSdef, show 2 * π / 3 - (-θ - 2 * π / 3) = π - (-θ - π / 3) by ring, Real.sin_pi_sub,
      Real.sin_sub, Real.sin_sub,
      Real.cos_pi_div_three, Real.sin_pi_div_three, cos_2pi3, sin_2pi3,
      Real.sin_neg, Real.cos_neg]
    ring
  show fromRGB ⟨0, o, 1⟩ = _
  unfold fromRGB
  dsimp only
  rw [hccval, one_div_div, COS120_eq, SIN120_eq]
  refine Prod.ext ?_ ?_ <;> dsimp only
  · field_simp
    linear_combination (-4) * hplus - 4 * hoS
  · field_simp
    linear_combination 2 * Real.sqrt 3 * hminus + 2 * Real.sqrt 3 * hoS

theorem fromAngle_cc_pos (θ : ℝ) : 0 < (fromAngle (some θ)).chromaCorrection := by
  have h : (fromAngle (some θ)).chromaCorrection = ccOf 1 ((fromAngle (some θ)).other) := rfl
  rw [h]
  exact ccOf_one_pos _

theorem fromAngle_pure (θ : ℝ) (hθ : |θ| ≤ π) :
    fromRGB (pureRGB (fromAngle (some θ))) =
      (1 / (fromAngle (some θ)).chromaCorrection * Real.cos θ,
        1 / (fromAngle (some θ)).chromaCorrection * Real.sin θ) := by
  obtain ⟨hl, hu⟩ := abs_le.mp hθ
  rcases le_or_lt 0 θ with h | h
  · by_cases h1 : θ ≤ π / 3
    · exact fromAngle_pure_s1 θ h h1
    · by_cases h2 : θ ≤ 2 * π / 3
      · exact fromAngle_pure_s2 θ (lt_of_not_le h1) h2
      · exact fromAngle_pure_s3 θ (lt_of_not_le h2) hu
  · by_cases h1 : -θ ≤ π / 3
    · exact fromAngle_pure_s1n θ h h1
    · by_cases h2 : -θ ≤ 2 * π / 3
      · exact fromAngle_pure_s2n θ (lt_of_not_le h1) h2
      · exact fromAngle_pure_s3n θ (lt_of_not_le h2) (by linarith)

theorem fromAngle_other_mem (θ : ℝ) (hθ : |θ| ≤ π) :
    0 ≤ (fromAngle (some θ)).other ∧ (fromAngle (some θ)).other ≤ 1 := by
  obtain ⟨hl, hu⟩ := abs_le.mp hθ
  rcases le_or_lt 0 θ with h | h
  · by_cases h1 : θ ≤ π / 3
    · rw [fromAngle_sector1 θ h h1]
      have := otherFacts θ h h1
      exact ⟨this.2.1, this.2.2.1⟩
    · by_cases h2 : θ ≤ 2 * π / 3
      · rw [fromAngle_sector2 θ (lt_of_not_le h1) h2]
        have := otherFacts (2 * π / 3 - θ) (by linarith) (by linarith [lt_of_not_le h1])
        exact ⟨this.2.1, this.2.2.1⟩
      · rw [fromAngle_sector3 θ (lt_of_not_le h2)]
        have := otherFacts (θ - 2 * π / 3) (by linarith [lt_of_not_le h2]) (by linarith)
        exact ⟨this.2.1, this.2.2.1⟩
  · by_cases h1 : -θ ≤ π / 3
    · rw [fromAngle_sector1n θ h h1]
      have := otherFacts (-θ) (by linarith) h1
      exact ⟨this.2.1, this.2.2.1⟩
    · by_cases h2 : -θ ≤ 2 * π / 3
      · rw [fromAngle_sector2n θ (lt_of_not_le h1) h2]
        have := otherFacts (2 * π / 3 - -θ) (by linarith) (by linarith [lt_of_not_le h1])
        exact ⟨this.2.1, this.2.2.1⟩
      · rw [fromAngle_sector3n θ (lt_of_not_le h2)]
        have := otherFacts (-θ - 2 * π / 3) (by linarith [lt_of_not_le h2]) (by linarith)
        exact ⟨this.2.1, this.2.2.1⟩

end EPaint

namespace EPaint

open Real

/-! ## Manipulator state geometry (rgbh.py: RGBManipulator internals) -/

theorem fromRGB_smul (t : ℝ) (c : RGBR) :
    fromRGB (RGBR.smulC t c) = (t * (fromRGB c).1, t * (fromRGB c).2) := by
  unfold fromRGB RGBR.smulC
  refine Prod.ext ?_ ?_ <;> dsimp only <;> ring

theorem fromRGB_addGrey (c : RGBR) (d : ℝ) : fromRGB (c.addGrey d) = fromRGB c := by
  unfold fromRGB RGBR.addGrey COS120
  refine Prod.ext ?_ ?_ <;> dsimp only <;> ring

theorem fromRGB_inj_grey {u v : RGBR} (h : fromRGB u = fromRGB v) :
    ∃ d, u = v.addGrey d := by
  obtain ⟨ur, ug, ub⟩ := u
  obtain ⟨vr, vg, vb⟩ := v
  unfold fromRGB COS120 at h
  have hx := congrArg Prod.fst h
  have hy := congrArg Prod.snd h
  dsimp only at hx hy
  have hgb : ug - ub = vg - vb := by
    have hs := SIN120_pos
    nlinarith [hy]
  refine ⟨ug - vg, ?_⟩
  unfold RGBR.addGrey
  have h2 : ub = vb + (ug - vg) := by nlinarith [hy, SIN120_pos]
  have h1 : ur = vr + (ug - vg) := by nlinarith [hx, hy, SIN120_pos]
  rw [RGBR.mk.injEq]
  exact ⟨h1, by ring, h2⟩

theorem minC_addGrey (c : RGBR) (d : ℝ) : (c.addGrey d).minC = c.minC + d := by
  unfold RGBR.minC RGBR.addGrey
  dsimp only
  rw [min_add_add_right, min_add_add_right]

theorem maxC_addGrey (c : RGBR) (d : ℝ) : (c.addGrey d).maxC = c.maxC + d := by
  unfold RGBR.maxC RGBR.addGrey
  dsimp only
  rw [max_add_add_right, max_add_add_right]

theorem value_addGrey (c : RGBR) (d : ℝ) : (c.addGrey d).value = c.value + d := by
  unfold RGBR.value RGBR.addGrey
  dsimp only
  ring

theorem addGrey_zero (c : RGBR) : c.addGrey 0 = c := by
  unfold RGBR.addGrey
  rw [RGBR.mk.injEq]
  refine ⟨by ring, by ring, by ring⟩

theorem sub_min_eq_addGrey (c : RGBR) :
    (⟨c.red - c.minC, c.green - c.minC, c.blue - c.minC⟩ : RGBR) = c.addGrey (-c.minC) := by
  unfold RGBR.addGrey
  rw [RGBR.mk.injEq]
  refine ⟨by ring, by ring, by ring⟩

theorem getAngle_spec (xy : ℝ × ℝ) (h : ¬(xy.1 = 0 ∧ xy.2 = 0)) :
    ∃ θ, getAngle xy = some θ ∧ |θ| ≤ π ∧ 0 < getHypot xy ∧
      xy.1 = getHypot xy * Real.cos θ ∧ xy.2 = getHypot xy * Real.sin θ := by
  obtain ⟨x, y⟩ := xy
  dsimp only at h ⊢
  have hz : (⟨x, y⟩ : ℂ) ≠ 0 := by
    intro hc
    rw [Complex.ext_iff] at hc
    exact h ⟨hc.1, hc.2⟩
  have habs : Complex.abs ⟨x, y⟩ = getHypot (x, y) := by
    rw [Complex.abs_apply, Complex.normSq_mk]
    unfold getHypot
    dsimp only
    ring_nf
  have habs_pos : 0 < Complex.abs ⟨x, y⟩ := Complex.abs.pos hz
  have hHpos : 0 < getHypot (x, y) := habs ▸ habs_pos
  refine ⟨Complex.arg ⟨x, y⟩, ?_, ?_, ?_, ?_, ?_⟩
  · unfold getAngle atan2
    rw [if_neg h]
  · rw [abs_le]
    exact ⟨(Complex.neg_pi_lt_arg _).le, Complex.arg_le_pi _⟩
  · exact hHpos
  · have := Complex.cos_arg hz
    rw [habs] at this
    rw [this]
    rw [mul_div_cancel₀ _ (ne_of_gt hHpos)]
  · have := Complex.sin_arg (⟨x, y⟩ : ℂ)
    rw [habs] at this
    rw [this]
    rw [mul_div_cancel₀ _ (ne_of_gt hHpos)]

theorem fromAngle_io_cases (θ : ℝ) :
    ∃ i, (fromAngle (some θ)).ioIdx = some i ∧
      (i = (0, 1, 2) ∨ i = (0, 2, 1) ∨ i = (1, 0, 2) ∨ i = (2, 0, 1) ∨
        i = (1, 2, 0) ∨ i = (2, 1, 0)) := by
  unfold fromAngle fromAngleG
  dsimp only
  split_ifs <;> exact ⟨_, rfl, by tauto⟩

theorem pure_comp_facts (h : Hue) (i : ℕ × ℕ × ℕ) (hio : h.ioIdx = some i)
    (hcases : i = (0, 1, 2) ∨ i = (0, 2, 1) ∨ i = (1, 0, 2) ∨ i = (2, 0, 1) ∨
      i = (1, 2, 0) ∨ i = (2, 1, 0))
    (ho0 : 0 ≤ h.other) (ho1 : h.other ≤ 1) (t : ℝ) (ht : 0 ≤ t) :
    (RGBR.smulC t (pureRGB h)).minC = 0 ∧ (RGBR.smulC t (pureRGB h)).maxC = t ∧
    (RGBR.smulC t (pureRGB h)).value = t * (1 + h.other) / 3 := by
  have hto : t * h.other ≤ t * 1 := by nlinarith
  have hto0 : 0 ≤ t * h.other := by positivity
  unfold pureRGB
  rcases hcases with hc | hc | hc | hc | hc | hc <;> subst hc <;> rw [hio] <;>
    unfold RGBR.smulC RGBR.minC RGBR.maxC RGBR.value <;> dsimp only <;>
    refine ⟨?_, ?_, by ring⟩ <;>
    · rw [show t * (1 : ℝ) = t by ring, show t * (0 : ℝ) = 0 by ring] at *
      rcases le_total (t * h.other) t with hx | hx <;>
        simp [min_def, max_def, ht, hto0, hx] <;> nlinarith

theorem state_geometry (c : RGBR) (hng : ¬((fromRGB c).1 = 0 ∧ (fromRGB c).2 = 0)) :
    ∃ θ, getAngle (fromRGB c) = some θ ∧ |θ| ≤ π ∧ 0 < getHypot (fromRGB c) ∧
      getSimplestRGB (fromRGB c) =
        RGBR.smulC (getHypot (fromRGB c) * (fromAngle (some θ)).chromaCorrection)
          (pureRGB (fromAngle (some θ))) ∧
      getHypot (fromRGB c) * (fromAngle (some θ)).chromaCorrection = c.maxC - c.minC := by
  obtain ⟨θ, hang, hθ, hHpos, hx, hy⟩ := getAngle_spec (fromRGB c) hng
  obtain ⟨ho0, ho1⟩ := fromAngle_other_mem θ hθ
  have hccpos := fromAngle_cc_pos θ
  obtain ⟨i, hio, hicases⟩ := fromAngle_io_cases θ
  set H := getHypot (fromRGB c) with hH
  set cc := (fromAngle (some θ)).chromaCorrection with hcc
  have hcr0 : 0 ≤ H * cc := by positivity
  obtain ⟨hvmin, hvmax, hvval⟩ :=
    pure_comp_facts (fromAngle (some θ)) i hio hicases ho0 ho1 (H * cc) hcr0
  have hfv : fromRGB (RGBR.smulC (H * cc) (pureRGB (fromAngle (some θ)))) = fromRGB c := by
    rw [fromRGB_smul, fromAngle_pure θ hθ]
    dsimp only
    have hccne : cc ≠ 0 := ne_of_gt hccpos
    refine Prod.ext ?_ ?_ <;> dsimp only
    · rw [hx]
      field_simp
      ring
    · rw [hy]
      field_simp
      ring
  have hu : getSimplestRGB (fromRGB c) = c.addGrey (-c.minC) := by
    rw [simplest_fromRGB, sub_min_eq_addGrey]
  have hfu : fromRGB (getSimplestRGB (fromRGB c)) = fromRGB c := by
    rw [hu, fromRGB_addGrey]
  obtain ⟨d, hd⟩ := fromRGB_inj_grey (hfu.trans hfv.symm)
  have hminu : (getSimplestRGB (fromRGB c)).minC = 0 := by
    rw [hu, minC_addGrey]
    ring
  have hd0 : d = 0 := by
    have := congrArg RGBR.minC hd
    rw [hminu, minC_addGrey, hvmin] at this
    linarith
  rw [hd0, addGrey_zero] at hd
  refine ⟨θ, hang, hθ, hHpos, hd, ?_⟩
  have hmaxu : (getSimplestRGB (fromRGB c)).maxC = c.maxC - c.minC := by
    rw [hu, maxC_addGrey]
    ring
  rw [← hmaxu, hd, hvmax]

theorem minC_le_comps (c : RGBR) :
    c.minC ≤ c.red ∧ c.minC ≤ c.green ∧ c.minC ≤ c.blue := by
  unfold RGBR.minC
  refine ⟨min_le_left _ _, ?_, ?_⟩
  · exact le_trans (min_le_right _ _) (min_le_left _ _)
  · exact le_trans (min_le_right _ _) (min_le_right _ _)

theorem comps_le_maxC (c : RGBR) :
    c.red ≤ c.maxC ∧ c.green ≤ c.maxC ∧ c.blue ≤ c.maxC := by
  unfold RGBR.maxC
  refine ⟨le_max_left _ _, ?_, ?_⟩
  · exact le_trans (le_max_left _ _) (le_max_right _ _)
  · exact le_trans (le_max_right _ _) (le_max_right _ _)

theorem minC_le_maxC (c : RGBR) : c.minC ≤ c.maxC :=
  le_trans (minC_le_comps c).1 (comps_le_maxC c).1

theorem minC_le_value (c : RGBR) : c.minC ≤ c.value := by
  have h1 := minC_le_comps c
  unfold RGBR.value
  linarith [h1.1, h1.2.1, h1.2.2]

theorem value_le_maxC (c : RGBR) : c.value ≤ c.maxC := by
  have h1 := comps_le_maxC c
  unfold RGBR.value
  linarith [h1.1, h1.2.1, h1.2.2]

theorem inUnit_minC (c : RGBR) (h : c.inUnit) : 0 ≤ c.minC := by
  obtain ⟨h1, h2, h3, h4, h5, h6⟩ := h
  unfold RGBR.minC
  exact le_min h1 (le_min h3 h5)

theorem inUnit_maxC (c : RGBR) (h : c.inUnit) : c.maxC ≤ 1 := by
  obtain ⟨h1, h2, h3, h4, h5, h6⟩ := h
  unfold RGBR.maxC
  exact max_le h2 (max_le h4 h6)

theorem grey_comps {c : RGBR} (h : (fromRGB c).1 = 0 ∧ (fromRGB c).2 = 0) :
    c.red = c.green ∧ c.green = c.blue := by
  obtain ⟨hx, hy⟩ := h
  unfold fromRGB COS120 at hx hy
  dsimp only at hx hy
  have hgb : c.green = c.blue := by
    have hs := SIN120_pos
    nlinarith
  exact ⟨by linarith, hgb⟩

theorem grey_state (s : MState) (h : (fromRGB s.rgb).1 = 0 ∧ (fromRGB s.rgb).2 = 0) :
    s.hue = fromAngle none ∧ s.baseRGB = ⟨0, 0, 0⟩ ∧ s.chroma = 0 ∧
    s.minValueHC = 0 ∧ s.maxValueHC = 1 ∧ s.value = s.rgb.red ∧
    s.rgb.green = s.rgb.red ∧ s.rgb.blue = s.rgb.red := by
  obtain ⟨hrg, hgb⟩ := grey_comps h
  have hhue : s.hue = fromAngle none := by
    unfold MState.hue MState.xy getAngle
    rw [if_pos h]
  have hmin : s.rgb.minC = s.rgb.red := by
    unfold RGBR.minC
    rw [← hrg, ← hgb, ← hrg, min_self, min_self]
  have hbase : s.baseRGB = ⟨0, 0, 0⟩ := by
    unfold MState.baseRGB MState.xy
    rw [simplest_fromRGB, hmin, RGBR.mk.injEq]
    refine ⟨by ring, by linarith, by linarith⟩
  have hhyp : getHypot s.xy = 0 := by
    unfold MState.xy getHypot
    rw [h.1, h.2]
    simp
  have hchroma : s.chroma = 0 := by
    unfold MState.chroma
    rw [hhyp]
    simp
  refine ⟨hhue, hbase, hchroma, ?_, ?_, ?_, hrg.symm, by linarith⟩
  · unfold MState.minValueHC
    rw [hbase]
    unfold RGBR.value
    dsimp only
    ring
  · unfold MState.maxValueHC
    rw [hbase]
    unfold RGBR.value RGBR.maxC
    dsimp only
    norm_num
  · unfold MState.value RGBR.value
    rw [← hrg, ← hgb, ← hrg]
    ring

theorem getXY_simplest (θ : ℝ) (hθ : |θ| ≤ π) (c : ℝ) (hc0 : 0 < c) (hc1 : c ≤ 1) :
    ∃ xy, (fromAngle (some θ)).getXYForChroma c = some xy ∧
      getSimplestRGB xy = RGBR.smulC c (pureRGB (fromAngle (some θ))) := by
  have hang : (fromAngle (some θ)).angle = some θ := rfl
  have hccpos := fromAngle_cc_pos θ
  obtain ⟨ho0, ho1⟩ := fromAngle_other_mem θ hθ
  obtain ⟨i, hio, hicases⟩ := fromAngle_io_cases θ
  obtain ⟨hvmin, hvmax, hvval⟩ :=
    pure_comp_facts (fromAngle (some θ)) i hio hicases ho0 ho1 c hc0.le
  refine ⟨(c / (fromAngle (some θ)).chromaCorrection * Real.cos θ,
      c / (fromAngle (some θ)).chromaCorrection * Real.sin θ), ?_, ?_⟩
  · unfold Hue.getXYForChroma
    rw [if_pos ⟨hc0, hc1⟩]
    rfl
  · have hfv : fromRGB (RGBR.smulC c (pureRGB (fromAngle (some θ)))) =
        (c / (fromAngle (some θ)).chromaCorrection * Real.cos θ,
          c / (fromAngle (some θ)).chromaCorrection * Real.sin θ) := by
      rw [fromRGB_smul, fromAngle_pure θ hθ]
      have hccne : (fromAngle (some θ)).chromaCorrection ≠ 0 := ne_of_gt hccpos
      refine Prod.ext ?_ ?_ <;> dsimp only <;> field_simp <;> ring
    rw [← hfv, simplest_fromRGB, hvmin, RGBR.mk.injEq]
    refine ⟨by ring, by ring, by ring⟩

theorem nongrey_state (s : MState) (hin : s.rgb.inUnit)
    (hng : ¬((fromRGB s.rgb).1 = 0 ∧ (fromRGB s.rgb).2 = 0)) :
    ∃ θ, getAngle s.xy = some θ ∧ |θ| ≤ π ∧ s.hue = fromAngle (some θ) ∧
      s.chroma = s.rgb.maxC - s.rgb.minC ∧ 0 < s.chroma ∧
      s.baseRGB = RGBR.smulC s.chroma (pureRGB s.hue) ∧
      s.rgb = s.baseRGB.addGrey s.rgb.minC ∧
      s.minValueHC = s.chroma * (1 + s.hue.other) / 3 ∧
      s.maxValueHC = s.minValueHC + 1 - s.chroma ∧
      s.value = s.minValueHC + s.rgb.minC := by
  obtain ⟨θ, hang, hθ, hHpos, hbase, hcr⟩ := state_geometry s.rgb hng
  have hccpos := fromAngle_cc_pos θ
  obtain ⟨ho0, ho1⟩ := fromAngle_other_mem θ hθ
  obtain ⟨i, hio, hicases⟩ := fromAngle_io_cases θ
  have hxy : s.xy = fromRGB s.rgb := rfl
  have hhue : s.hue = fromAngle (some θ) := by
    unfold MState.hue
    rw [hxy, hang]
  have hchroma : s.chroma = s.rgb.maxC - s.rgb.minC := by
    unfold MState.chroma
    rw [hxy, hhue, hcr]
    exact min_eq_left (by linarith [inUnit_maxC s.rgb hin, inUnit_minC s.rgb hin])
  have hcpos : 0 < s.chroma := by
    rw [hchroma, ← hcr]
    positivity
  obtain ⟨hvmin, hvmax, hvval⟩ :=
    pure_comp_facts (fromAngle (some θ)) i hio hicases ho0 ho1 s.chroma hcpos.le
  have hbase2 : s.baseRGB = RGBR.smulC s.chroma (pureRGB s.hue) := by
    unfold MState.baseRGB
    rw [hxy, hbase, hhue, hchroma, ← hcr]
  have hrgbeq : s.rgb = s.baseRGB.addGrey s.rgb.minC := by
    have h1 : s.baseRGB = getSimplestRGB (fromRGB s.rgb) := rfl
    rw [h1, simplest_fromRGB, sub_min_eq_addGrey]
    unfold RGBR.addGrey
    rw [RGBR.mk.injEq]
    refine ⟨by ring, by ring, by ring⟩
  have hminv : s.minValueHC = s.chroma * (1 + s.hue.other) / 3 := by
    unfold MState.minValueHC
    rw [hbase2, hhue]
    exact hvval
  have hmaxv : s.maxValueHC = s.minValueHC + 1 - s.chroma := by
    unfold MState.maxValueHC MState.minValueHC
    rw [hbase2, hhue, hvmax]
  have hvalue : s.value = s.minValueHC + s.rgb.minC := by
    unfold MState.value MState.minValueHC
    rw [show s.rgb = s.baseRGB.addGrey s.rgb.minC from hrgbeq, value_addGrey]
    rw [← hrgbeq]
  exact ⟨θ, by rw [← hxy] at hang; exact hang, hθ, hhue, hchroma, hcpos, hbase2, hrgbeq,
    hminv, hmaxv, hvalue⟩

theorem cos_shift (θ : ℝ) (hθ : |θ| ≤ π) (i : ℕ × ℕ × ℕ)
    (hio : (fromAngle (some θ)).ioIdx = some i)
    (hicases : i = (0, 1, 2) ∨ i = (0, 2, 1) ∨ i = (1, 0, 2) ∨ i = (2, 0, 1) ∨
      i = (1, 2, 0) ∨ i = (2, 1, 0)) :
    Real.cos (if i.1 = 0 then θ else if i.1 = 1 then θ - 2 * π / 3 else θ + 2 * π / 3) =
      (1 - (fromAngle (some θ)).other / 2) * (fromAngle (some θ)).chromaCorrection := by
  have hpure := fromAngle_pure θ hθ
  have hccpos := fromAngle_cc_pos θ
  have hccne : (fromAngle (some θ)).chromaCorrection ≠ 0 := ne_of_gt hccpos
  have h3 : Real.sqrt 3 ^ 2 = 3 := Real.sq_sqrt (by norm_num)
  set o := (fromAngle (some θ)).other with hodef
  set cc := (fromAngle (some θ)).chromaCorrection with hccdef
  rcases hicases with hc | hc | hc | hc | hc | hc
  · have hp : pureRGB (fromAngle (some θ)) = ⟨1, o, 0⟩ := by
      unfold pureRGB
      rw [hio, hc]
    rw [hp] at hpure
    unfold fromRGB COS120 at hpure
    have hx := congrArg Prod.fst hpure
    dsimp only at hx
    rw [hc]
    norm_num
    field_simp at hx
    linear_combination (-(1 : ℝ) / 2) * hx
  · have hp : pureRGB (fromAngle (some θ)) = ⟨1, 0, o⟩ := by
      unfold pureRGB
      rw [hio, hc]
    rw [hp] at hpure
    unfold fromRGB COS120 at hpure
    have hx := congrArg Prod.fst hpure
    dsimp only at hx
    rw [hc]
    norm_num
    field_simp at hx
    linear_combination (-(1 : ℝ) / 2) * hx
  · have hp : pureRGB (fromAngle (some θ)) = ⟨o, 1, 0⟩ := by
      unfold pureRGB
      rw [hio, hc]
    rw [hp] at hpure
    unfold fromRGB COS120 at hpure
    have hx := congrArg Prod.fst hpure
    have hy := congrArg Prod.snd hpure
    dsimp only at hx hy
    rw [SIN120_eq] at hy
    rw [hc]
    norm_num
    rw [Real.cos_sub, sin_2pi3, cos_2pi3]
    field_simp at hx hy
    linear_combination ((1 : ℝ) / 4) * hx - (Real.sqrt 3 / 4) * hy + (cc / 4) * h3
  · have hp : pureRGB (fromAngle (some θ)) = ⟨o, 0, 1⟩ := by
      unfold pureRGB
      rw [hio, hc]
    rw [hp] at hpure
    unfold fromRGB COS120 at hpure
    have hx := congrArg Prod.fst hpure
    have hy := congrArg Prod.snd hpure
    dsimp only at hx hy
    rw [SIN120_eq] at hy
    rw [hc]
    norm_num
    rw [Real.cos_add, sin_2pi3, cos_2pi3]
    field_simp at hx hy
    linear_combination ((1 : ℝ) / 4) * hx + (Real.sqrt 3 / 4) * hy + (cc / 4) * h3
  · have hp : pureRGB (fromAngle (some θ)) = ⟨0, 1, o⟩ := by
      unfold pureRGB
      rw [hio, hc]
    rw [hp] at hpure
    unfold fromRGB COS120 at hpure
    have hx := congrArg Prod.fst hpure
    have hy := congrArg Prod.snd hpure
    dsimp only at hx hy
    rw [SIN120_eq] at hy
    rw [hc]
    norm_num
    rw [Real.cos_sub, sin_2pi3, cos_2pi3]
    field_simp at hx hy
    linear_combination ((1 : ℝ) / 4) * hx - (Real.sqrt 3 / 4) * hy + ((1 - o) * cc / 4) * h3
  · have hp : pureRGB (fromAngle (some θ)) = ⟨0, o, 1⟩ := by
      unfold pureRGB
      rw [hio, hc]
    rw [hp] at hpure
    unfold fromRGB COS120 at hpure
    have hx := congrArg Prod.fst hpure
    have hy := congrArg Prod.snd hpure
    dsimp only at hx hy
    rw [SIN120_eq] at hy
    rw [hc]
    norm_num
    rw [Real.cos_add, sin_2pi3, cos_2pi3]
    field_simp at hx hy
    linear_combination ((1 : ℝ) / 8) * hx + (Real.sqrt 3 / 4) * hy + ((1 - o) * cc / 4) * h3

end EPaint

namespace EPaint

open Real

/-! ## Manipulator invariant (rgbh.py: RGBManipulator), claims C6 and C10 -/

theorem inUnit_of_minmax (c : RGBR) (h0 : 0 ≤ c.minC) (h1 : c.maxC ≤ 1) : c.inUnit := by
  obtain ⟨a1, a2, a3⟩ := minC_le_comps c
  obtain ⟨b1, b2, b3⟩ := comps_le_maxC c
  exact ⟨by linarith, by linarith, by linarith, by linarith, by linarith, by linarith⟩

theorem value_in_unit (c : RGBR) (h : c.inUnit) : 0 ≤ c.value ∧ c.value ≤ 1 :=
  ⟨le_trans (inUnit_minC c h) (minC_le_value c),
   le_trans (value_le_maxC c) (inUnit_maxC c h)⟩

theorem fromAngle_angle (oa : Option ℝ) : (fromAngle oa).angle = oa := by
  cases oa with
  | none => rfl
  | some θ => rfl

theorem getAngle_ne_none {xy : ℝ × ℝ} {θ : ℝ} (h : getAngle xy = some θ) :
    ¬(xy.1 = 0 ∧ xy.2 = 0) := by
  intro hc
  unfold getAngle at h
  rw [if_pos hc] at h
  exact Option.noConfusion h

theorem getAngle_abs_le {xy : ℝ × ℝ} {θ : ℝ} (h : getAngle xy = some θ) : |θ| ≤ π := by
  unfold getAngle at h
  split_ifs at h
  rw [Option.some.injEq] at h
  rw [← h, abs_le]
  exact ⟨(Complex.neg_pi_lt_arg _).le, Complex.arg_le_pi _⟩

theorem WFHue_getAngle (xy : ℝ × ℝ) : WFHue (fromAngle (getAngle xy)) := by
  cases h : getAngle xy with
  | none => exact Or.inl rfl
  | some θ => exact Or.inr ⟨θ, getAngle_abs_le h, rfl⟩

theorem WFHue_state_hue (s : MState) : WFHue s.hue := WFHue_getAngle s.xy

theorem chroma_le_one (s : MState) : s.chroma ≤ 1 := min_le_right _ _

theorem nongrey_of_chroma_pos (s : MState) (h : 0 < s.chroma) :
    ¬((fromRGB s.rgb).1 = 0 ∧ (fromRGB s.rgb).2 = 0) := by
  intro hc
  obtain ⟨-, -, hch, -⟩ := grey_state s hc
  rw [hch] at h
  exact lt_irrefl 0 h

theorem getXYForChroma_bounds {h : Hue} {c : ℝ} {xy : ℝ × ℝ}
    (hx : h.getXYForChroma c = some xy) : 0 < c ∧ c ≤ 1 := by
  unfold Hue.getXYForChroma at hx
  by_contra hc
  rw [if_neg hc] at hx
  exact Option.noConfusion hx

theorem getXYForChroma_nongrey {h : Hue} {c : ℝ} {xy : ℝ × ℝ}
    (hx : h.getXYForChroma c = some xy) : ∃ θ, h.angle = some θ := by
  unfold Hue.getXYForChroma at hx
  split_ifs at hx
  · cases hh : h.angle with
    | none =>
      rw [hh] at hx
      exact Option.noConfusion hx
    | some θ => exact ⟨θ, rfl⟩

theorem pyround_range (x : ℝ) (m : ℤ) (h0 : 0 ≤ x) (h1 : x ≤ m) :
    0 ≤ ((pyround x : ℤ) : ℝ) ∧ ((pyround x : ℤ) : ℝ) ≤ m := by
  unfold pyround pyint
  rw [if_neg (by push_neg; linarith)]
  have hf : (⌊x + 1 / 2⌋ : ℝ) ≤ x + 1 / 2 := Int.floor_le _
  constructor
  · have : (0 : ℤ) ≤ ⌊x + 1 / 2⌋ := Int.le_floor.mpr (by push_cast; linarith)
    exact_mod_cast this
  · have h2 : ⌊x + 1 / 2⌋ < m + 1 := by
      have : (⌊x + 1 / 2⌋ : ℝ) < (m : ℝ) + 1 := by linarith
      exact_mod_cast this
    have h3 : ⌊x + 1 / 2⌋ ≤ m := by omega
    exact_mod_cast h3

theorem getAngle_eq_none {xy : ℝ × ℝ} (h : getAngle xy = none) : xy.1 = 0 ∧ xy.2 = 0 := by
  by_contra hc
  unfold getAngle at h
  rw [if_neg hc] at h
  exact Option.noConfusion h

theorem getXY_simplest_pair (θ : ℝ) (hθ : |θ| ≤ π) (c : ℝ) (hc0 : 0 < c) (hc1 : c ≤ 1) :
    getSimplestRGB (c / (fromAngle (some θ)).chromaCorrection * Real.cos θ,
      c / (fromAngle (some θ)).chromaCorrection * Real.sin θ) =
      RGBR.smulC c (pureRGB (fromAngle (some θ))) := by
  obtain ⟨xy0, hxy0, hsimp0⟩ := getXY_simplest θ hθ c hc0 hc1
  have h2 : (fromAngle (some θ)).getXYForChroma c =
      some (c / (fromAngle (some θ)).chromaCorrection * Real.cos θ,
        c / (fromAngle (some θ)).chromaCorrection * Real.sin θ) := by
    unfold Hue.getXYForChroma
    rw [if_pos ⟨hc0, hc1⟩]
    rfl
  rw [h2, Option.some.injEq] at hxy0
  rw [← hxy0] at hsimp0
  exact hsimp0

theorem getXYForChroma_eval (θ : ℝ) (c : ℝ) (hc : 0 < c ∧ c ≤ 1) :
    (fromAngle (some θ)).getXYForChroma c =
      some (c / (fromAngle (some θ)).chromaCorrection * Real.cos θ,
        c / (fromAngle (some θ)).chromaCorrection * Real.sin θ) := by
  unfold Hue.getXYForChroma
  rw [if_pos hc]
  rfl

theorem maxChromaForValue_eq (θ : ℝ) (hθ : |θ| ≤ π) (v : ℝ) :
    (fromAngle (some θ)).maxChromaForValue v =
      if v * 3 < 1 + (fromAngle (some θ)).other then
        v * 3 / (1 + (fromAngle (some θ)).other)
      else 3 * (1 - v) / (2 - (fromAngle (some θ)).other) := by
  have hccpos := fromAngle_cc_pos θ
  obtain ⟨ho0, ho1⟩ := fromAngle_other_mem θ hθ
  obtain ⟨i, hio, hicases⟩ := fromAngle_io_cases θ
  unfold Hue.maxChromaForValue Hue.maxChromaForTotal
  rw [fromAngle_angle]
  dsimp only
  split_ifs with hcase
  · rfl
  · rw [hio]
    dsimp only
    rw [cos_shift θ hθ i hio hicases]
    have h1 : (0 : ℝ) < 1 - (fromAngle (some θ)).other / 2 := by linarith
    have h2 : (0 : ℝ) < 2 - (fromAngle (some θ)).other := by linarith
    field_simp
    ring

theorem clampGrey_inUnit (nb : RGBR) (v : ℝ) (hmin : nb.minC = 0) (hmax : nb.maxC ≤ 1) :
    (if 0 < min (1 - nb.maxC) (v - nb.value) then
        nb.addGrey (min (1 - nb.maxC) (v - nb.value)) else nb).inUnit := by
  split_ifs with hdpos
  · apply inUnit_of_minmax
    · rw [minC_addGrey, hmin]
      linarith
    · rw [maxC_addGrey]
      have hle : min (1 - nb.maxC) (v - nb.value) ≤ 1 - nb.maxC := min_le_left _ _
      linarith
  · exact inUnit_of_minmax nb (by rw [hmin]) hmax

theorem setFromChroma_lastHue (nc : ℝ) (s : MState) :
    (setFromChroma nc s).lastHue = s.lastHue := by
  unfold setFromChroma
  dsimp only
  split_ifs <;> rfl

theorem setFromChroma_rgb (nc : ℝ) (s : MState) :
    (setFromChroma nc s).rgb =
      (if 0 < min (1 - (getSimplestRGB (nc / s.chroma * s.xy.1, nc / s.chroma * s.xy.2)).maxC)
            (s.value - (getSimplestRGB (nc / s.chroma * s.xy.1, nc / s.chroma * s.xy.2)).value)
        then (getSimplestRGB (nc / s.chroma * s.xy.1, nc / s.chroma * s.xy.2)).addGrey
            (min (1 - (getSimplestRGB (nc / s.chroma * s.xy.1, nc / s.chroma * s.xy.2)).maxC)
              (s.value - (getSimplestRGB (nc / s.chroma * s.xy.1, nc / s.chroma * s.xy.2)).value))
        else getSimplestRGB (nc / s.chroma * s.xy.1, nc / s.chroma * s.xy.2)) := by
  unfold setFromChroma
  dsimp only
  split_ifs <;> rfl

theorem pyround_unit255 (c : ℝ) (h0 : 0 ≤ c) (h1 : c ≤ 1) :
    0 ≤ ((pyround (c * 255) : ℤ) : ℝ) ∧ ((pyround (c * 255) : ℤ) : ℝ) ≤ 255 := by
  have h := pyround_range (c * 255) 255 (by positivity) (by push_cast; nlinarith)
  refine ⟨h.1, ?_⟩
  have h2 := h.2
  push_cast at h2
  exact h2

theorem pyround_unit65535 (c : ℝ) (h0 : 0 ≤ c) (h1 : c ≤ 1) :
    0 ≤ ((pyround (c * 65535) : ℤ) : ℝ) ∧ ((pyround (c * 65535) : ℤ) : ℝ) ≤ 65535 := by
  have h := pyround_range (c * 65535) 65535 (by positivity) (by push_cast; nlinarith)
  refine ⟨h.1, ?_⟩
  have h2 := h.2
  push_cast at h2
  exact h2

theorem getRGB_range (s : MState) (h : s.rgb.inUnit) (t : Prec) :
    (s.getRGB t).inRange t.oneR := by
  obtain ⟨h1, h2, h3, h4, h5, h6⟩ := h
  cases t with
  | p8 =>
    unfold MState.getRGB Prec.rndR Prec.oneR RGBR.inRange
    dsimp only
    exact ⟨(pyround_unit255 _ h1 h2).1, (pyround_unit255 _ h1 h2).2,
      (pyround_unit255 _ h3 h4).1, (pyround_unit255 _ h3 h4).2,
      (pyround_unit255 _ h5 h6).1, (pyround_unit255 _ h5 h6).2⟩
  | p16 =>
    unfold MState.getRGB Prec.rndR Prec.oneR RGBR.inRange
    dsimp only
    exact ⟨(pyround_unit65535 _ h1 h2).1, (pyround_unit65535 _ h1 h2).2,
      (pyround_unit65535 _ h3 h4).1, (pyround_unit65535 _ h3 h4).2,
      (pyround_unit65535 _ h5 h6).1, (pyround_unit65535 _ h5 h6).2⟩
  | ppn =>
    unfold MState.getRGB Prec.rndR Prec.oneR RGBR.inRange
    dsimp only
    simp only [mul_one]
    exact ⟨h1, h2, h3, h4, h5, h6⟩

theorem setFromValue_inv (v : ℝ) (s : MState) (hin : s.rgb.inUnit) (s1 : MState)
    (h : setFromValue v s = some s1) :
    s1.rgb.inUnit ∧ s1.lastHue = s.lastHue := by
  unfold setFromValue at h
  rw [Option.map_eq_some'] at h
  obtain ⟨xy, hxy, hs1⟩ := h
  obtain ⟨θ0, hang0⟩ := getXYForChroma_nongrey hxy
  have hgetangle : getAngle s.xy = some θ0 := by
    have ha : s.hue.angle = getAngle s.xy := fromAngle_angle _
    rw [← ha, hang0]
  have hng : ¬((fromRGB s.rgb).1 = 0 ∧ (fromRGB s.rgb).2 = 0) := getAngle_ne_none hgetangle
  obtain ⟨θ, hang, hθ, hhue, hchroma, hcpos, hbase, hrgbeq, hminv, hmaxv, hvalue⟩ :=
    nongrey_state s hin hng
  obtain ⟨hmc0, hmc1⟩ := getXYForChroma_bounds hxy
  rw [hhue] at hxy hmc0 hmc1
  obtain ⟨ho0, ho1⟩ := fromAngle_other_mem θ hθ
  obtain ⟨i, hio, hicases⟩ := fromAngle_io_cases θ
  obtain ⟨hbmin, hbmax, hbval⟩ :=
    pure_comp_facts (fromAngle (some θ)) i hio hicases ho0 ho1 _ hmc0.le
  rw [getXYForChroma_eval θ _ ⟨hmc0, hmc1⟩, Option.some.injEq] at hxy
  rw [← hxy, getXY_simplest_pair θ hθ _ hmc0 hmc1] at hs1
  dsimp only at hs1
  rw [← hs1]
  unfold setRGB
  dsimp only
  refine ⟨?_, rfl⟩
  set o := (fromAngle (some θ)).other with hodef
  set mc := (fromAngle (some θ)).maxChromaForValue v with hmcdef
  apply inUnit_of_minmax
  · rw [minC_addGrey, hbmin, hbval, zero_add]
    rw [hmcdef, maxChromaForValue_eq θ hθ v, ← hodef] at hmc0 ⊢
    split_ifs with hcase
    · have h1o : (0 : ℝ) < 1 + o := by linarith
      have : v - v * 3 / (1 + o) * (1 + o) / 3 = 0 := by
        field_simp
      linarith
    · have h2o : (0 : ℝ) < 2 - o := by linarith
      have hvb : 1 + o ≤ v * 3 := not_lt.mp hcase
      have : v - 3 * (1 - v) / (2 - o) * (1 + o) / 3 = (v * 3 - 1 - o) / (2 - o) := by
        field_simp
        ring
      rw [this]
      exact div_nonneg (by linarith) h2o.le
  · rw [maxC_addGrey, hbmax, hbval]
    rw [hmcdef, maxChromaForValue_eq θ hθ v, ← hodef] at hmc0 hmc1 ⊢
    split_ifs with hcase
    · have h1o : (0 : ℝ) < 1 + o := by linarith
      have : v - v * 3 / (1 + o) * (1 + o) / 3 = 0 := by
        field_simp
      split_ifs at hmc1
      linarith
    · have h2o : (0 : ℝ) < 2 - o := by linarith
      have : 3 * (1 - v) / (2 - o) + (v - 3 * (1 - v) / (2 - o) * (1 + o) / 3) = 1 := by
        field_simp
        ring
      linarith

theorem zeroRGBR_facts :
    (⟨0, 0, 0⟩ : RGBR).minC = 0 ∧ (⟨0, 0, 0⟩ : RGBR).maxC = 0 := by
  unfold RGBR.minC RGBR.maxC
  norm_num

theorem setFromChroma_inv (nc : ℝ) (s : MState) (hin : s.rgb.inUnit)
    (hng : ¬((fromRGB s.rgb).1 = 0 ∧ (fromRGB s.rgb).2 = 0))
    (h0 : 0 ≤ nc) (h1 : nc ≤ 1) :
    (setFromChroma nc s).rgb.inUnit ∧ (setFromChroma nc s).lastHue = s.lastHue := by
  refine ⟨?_, setFromChroma_lastHue nc s⟩
  obtain ⟨θ, hang, hθ, hhue, hchroma, hcpos, hbase, hrgbeq, hminv, hmaxv, hvalue⟩ :=
    nongrey_state s hin hng
  have hccpos := fromAngle_cc_pos θ
  have hCne : s.chroma ≠ 0 := ne_of_gt hcpos
  have hccne : (fromAngle (some θ)).chromaCorrection ≠ 0 := ne_of_gt hccpos
  have hxyeq : s.xy = (s.chroma / (fromAngle (some θ)).chromaCorrection * Real.cos θ,
      s.chroma / (fromAngle (some θ)).chromaCorrection * Real.sin θ) := by
    have hx1 : s.xy = fromRGB s.rgb := rfl
    rw [hx1, hrgbeq, fromRGB_addGrey, hbase, hhue, fromRGB_smul, fromAngle_pure θ hθ]
    refine Prod.ext ?_ ?_ <;> dsimp only <;> ring
  rw [setFromChroma_rgb]
  rcases eq_or_lt_of_le h0 with hz | hpos
  · have hpair : ((nc / s.chroma * s.xy.1, nc / s.chroma * s.xy.2) : ℝ × ℝ) = (0, 0) := by
      rw [← hz]
      refine Prod.ext ?_ ?_ <;> dsimp only <;> ring
    have hs0 : getSimplestRGB ((0 : ℝ), (0 : ℝ)) = ⟨0, 0, 0⟩ := by
      unfold getSimplestRGB
      norm_num
    rw [hpair, hs0]
    exact clampGrey_inUnit ⟨0, 0, 0⟩ s.value zeroRGBR_facts.1 (by rw [zeroRGBR_facts.2]; norm_num)
  · have hpair : ((nc / s.chroma * s.xy.1, nc / s.chroma * s.xy.2) : ℝ × ℝ) =
        (nc / (fromAngle (some θ)).chromaCorrection * Real.cos θ,
          nc / (fromAngle (some θ)).chromaCorrection * Real.sin θ) := by
      rw [hxyeq]
      refine Prod.ext ?_ ?_ <;> dsimp only <;> field_simp <;> ring
    rw [hpair, getXY_simplest_pair θ hθ nc hpos h1]
    obtain ⟨ho0, ho1⟩ := fromAngle_other_mem θ hθ
    obtain ⟨i, hio, hicases⟩ := fromAngle_io_cases θ
    obtain ⟨hbmin, hbmax, hbval⟩ :=
      pure_comp_facts (fromAngle (some θ)) i hio hicases ho0 ho1 nc hpos.le
    exact clampGrey_inUnit _ s.value hbmin (by rw [hbmax]; exact h1)

theorem decrValue_inv (dv : ℝ) (hdv : 0 ≤ dv) (s : MState) (h : Inv s) (r : Bool × MState)
    (hr : decrValue dv s = some r) : Inv r.2 := by
  obtain ⟨hin, hWF⟩ := h
  unfold decrValue at hr
  dsimp only at hr
  split_ifs at hr with h1 h2 h3
  · rw [Option.some.injEq] at hr
    rw [← hr]
    exact ⟨hin, hWF⟩
  · rw [Option.some.injEq] at hr
    rw [← hr]
    refine ⟨?_, hWF⟩
    unfold setRGB RGBR.inUnit
    norm_num
  · rw [Option.map_eq_some'] at hr
    obtain ⟨s1, hs1, hr2⟩ := hr
    obtain ⟨hu, hlast⟩ := setFromValue_inv _ s hin s1 hs1
    rw [← hr2]
    refine ⟨hu, ?_⟩
    rw [hlast]
    exact hWF
  · rw [Option.some.injEq] at hr
    rw [← hr]
    refine ⟨?_, hWF⟩
    unfold setRGB
    dsimp only
    have hv0 : 0 ≤ max 0 (s.value - dv) := le_max_left _ _
    have hvle : max 0 (s.value - dv) ≤ s.value := by
      apply max_le
      · exact le_of_not_le h1
      · linarith
    have hvmin : s.minValueHC ≤ max 0 (s.value - dv) := le_of_not_lt h3
    have hval1 : s.value ≤ 1 := (value_in_unit s.rgb hin).2
    by_cases hgrey : (fromRGB s.rgb).1 = 0 ∧ (fromRGB s.rgb).2 = 0
    · obtain ⟨hhue, hbase, hch, hminv, hmaxv, hval, hg1, hg2⟩ := grey_state s hgrey
      rw [hbase, hminv]
      apply inUnit_of_minmax
      · rw [minC_addGrey, zeroRGBR_facts.1]
        linarith
      · rw [maxC_addGrey, zeroRGBR_facts.2]
        linarith
    · obtain ⟨θ, hang, hθ, hhue, hchroma, hcpos, hbase2, hrgbeq, hminv, hmaxv, hvalue⟩ :=
        nongrey_state s hin hgrey
      obtain ⟨ho0, ho1⟩ := fromAngle_other_mem θ hθ
      obtain ⟨i, hio, hicases⟩ := fromAngle_io_cases θ
      obtain ⟨hbmin, hbmax, hbval⟩ :=
        pure_comp_facts (fromAngle (some θ)) i hio hicases ho0 ho1 s.chroma hcpos.le
      have hbmin' : s.baseRGB.minC = 0 := by
        rw [hbase2, hhue]
        exact hbmin
      have hbmax' : s.baseRGB.maxC = s.chroma := by
        rw [hbase2, hhue]
        exact hbmax
      have hminc0 : 0 ≤ s.rgb.minC := inUnit_minC s.rgb hin
      have hmaxc1 : s.rgb.maxC ≤ 1 := inUnit_maxC s.rgb hin
      apply inUnit_of_minmax
      · rw [minC_addGrey, hbmin']
        linarith
      · rw [maxC_addGrey, hbmax']
        linarith

theorem incrValue_inv (dv : ℝ) (hdv : 0 ≤ dv) (s : MState) (h : Inv s) (r : Bool × MState)
    (hr : incrValue dv s = some r) : Inv r.2 := by
  obtain ⟨hin, hWF⟩ := h
  unfold incrValue at hr
  dsimp only at hr
  split_ifs at hr with h1 h2 h3
  · rw [Option.some.injEq] at hr
    rw [← hr]
    exact ⟨hin, hWF⟩
  · rw [Option.some.injEq] at hr
    rw [← hr]
    refine ⟨?_, hWF⟩
    unfold setRGB RGBR.inUnit
    norm_num
  · rw [Option.map_eq_some'] at hr
    obtain ⟨s1, hs1, hr2⟩ := hr
    obtain ⟨hu, hlast⟩ := setFromValue_inv _ s hin s1 hs1
    rw [← hr2]
    refine ⟨hu, ?_⟩
    rw [hlast]
    exact hWF
  · rw [Option.some.injEq] at hr
    rw [← hr]
    refine ⟨?_, hWF⟩
    unfold setRGB
    dsimp only
    have hval0 : 0 ≤ s.value := (value_in_unit s.rgb hin).1
    have hval1 : s.value ≤ 1 := (value_in_unit s.rgb hin).2
    have hv1 : min 1 (s.value + dv) ≤ 1 := min_le_left _ _
    have hvge : s.value ≤ min 1 (s.value + dv) := le_min hval1 (by linarith)
    have hvmax : min 1 (s.value + dv) ≤ s.maxValueHC := le_of_not_lt h3
    by_cases hgrey : (fromRGB s.rgb).1 = 0 ∧ (fromRGB s.rgb).2 = 0
    · obtain ⟨hhue, hbase, hch, hminv, hmaxv, hval, hg1, hg2⟩ := grey_state s hgrey
      rw [hbase, hminv]
      apply inUnit_of_minmax
      · rw [minC_addGrey, zeroRGBR_facts.1]
        linarith
      · rw [maxC_addGrey, zeroRGBR_facts.2]
        linarith
    · obtain ⟨θ, hang, hθ, hhue, hchroma, hcpos, hbase2, hrgbeq, hminv, hmaxv, hvalue⟩ :=
        nongrey_state s hin hgrey
      obtain ⟨ho0, ho1⟩ := fromAngle_other_mem θ hθ
      obtain ⟨i, hio, hicases⟩ := fromAngle_io_cases θ
      obtain ⟨hbmin, hbmax, hbval⟩ :=
        pure_comp_facts (fromAngle (some θ)) i hio hicases ho0 ho1 s.chroma hcpos.le
      have hbmin' : s.baseRGB.minC = 0 := by
        rw [hbase2, hhue]
        exact hbmin
      have hbmax' : s.baseRGB.maxC = s.chroma := by
        rw [hbase2, hhue]
        exact hbmax
      have hminc0 : 0 ≤ s.rgb.minC := inUnit_minC s.rgb hin
      apply inUnit_of_minmax
      · rw [minC_addGrey, hbmin']
        linarith
      · rw [maxC_addGrey, hbmax']
        linarith

theorem decrChroma_inv (dc : ℝ) (hdc : 0 ≤ dc) (s : MState) (h : Inv s) (r : Bool × MState)
    (hr : decrChroma dc s = some r) : Inv r.2 := by
  obtain ⟨hin, hWF⟩ := h
  unfold decrChroma at hr
  split_ifs at hr with h1
  · rw [Option.some.injEq] at hr
    rw [← hr]
    exact ⟨hin, hWF⟩
  · rw [Option.some.injEq] at hr
    rw [← hr]
    have hcpos : 0 < s.chroma := lt_of_not_le h1
    have hng := nongrey_of_chroma_pos s hcpos
    have hnc1 : max 0 (s.chroma - dc) ≤ 1 := by
      apply max_le
      · norm_num
      · linarith [chroma_le_one s]
    obtain ⟨hu, hlast⟩ := setFromChroma_inv (max 0 (s.chroma - dc)) s hin hng (le_max_left _ _) hnc1
    refine ⟨hu, ?_⟩
    rw [hlast]
    exact hWF

theorem rotateHue_inv (dh : ℝ) (s : MState) (h : Inv s) (r : Bool × MState)
    (hr : rotateHue dh s = some r) : Inv r.2 := by
  obtain ⟨hin, hWF⟩ := h
  unfold rotateHue at hr
  cases hh : s.hue.angle with
  | none =>
    rw [hh] at hr
    dsimp only at hr
    rw [Option.some.injEq] at hr
    rw [← hr]
    exact ⟨hin, hWF⟩
  | some θ =>
    rw [hh] at hr
    dsimp only at hr
    rw [Option.bind_eq_some] at hr
    obtain ⟨h1, hrot, hr2⟩ := hr
    unfold Hue.rotatedBy at hrot
    rw [hh] at hrot
    unfold fromAngleChecked at hrot
    dsimp only at hrot
    split_ifs at hrot with hθ2
    · rw [Option.some.injEq] at hrot
      rw [← hrot] at hr2
      rw [Option.map_eq_some'] at hr2
      obtain ⟨xy, hxy, hrr⟩ := hr2
      obtain ⟨hc0, hc1⟩ := getXYForChroma_bounds hxy
      rw [getXYForChroma_eval _ _ ⟨hc0, hc1⟩, Option.some.injEq] at hxy
      rw [← hxy, getXY_simplest_pair _ hθ2 _ hc0 hc1] at hrr
      rw [← hrr]
      dsimp only
      obtain ⟨ho0, ho1⟩ := fromAngle_other_mem _ hθ2
      obtain ⟨i, hio, hicases⟩ := fromAngle_io_cases (θ + dh)
      obtain ⟨hbmin, hbmax, hbval⟩ :=
        pure_comp_facts (fromAngle (some (θ + dh))) i hio hicases ho0 ho1 _ hc0.le
      set nb := RGBR.smulC s.chroma (pureRGB (fromAngle (some (θ + dh)))) with hnb
      have hcore := clampGrey_inUnit nb s.value hbmin (by rw [hbmax]; exact hc1)
      constructor
      · split_ifs at hcore ⊢ with hd
        · exact hcore
        · exact hcore
      · exact WFHue_state_hue _

theorem incrChroma_inv (dc : ℝ) (s : MState) (h : Inv s)
    (hsafe : 0 ≤ dc ∧ (s.hue.isGrey → s.lastHue.isGrey → s.value ≤ 0 ∨ 1 ≤ s.value))
    (r : Bool × MState) (hr : incrChroma dc s = some r) : Inv r.2 := by
  obtain ⟨hin, hWF⟩ := h
  obtain ⟨hdc, hsafe2⟩ := hsafe
  unfold incrChroma at hr
  by_cases hch : 1 ≤ s.chroma
  · rw [if_pos hch, Option.some.injEq] at hr
    rw [← hr]
    exact ⟨hin, hWF⟩
  · rw [if_neg hch] at hr
    cases hh : s.hue.angle with
    | some θh =>
      rw [hh] at hr
      dsimp only at hr
      rw [Option.some.injEq] at hr
      rw [← hr]
      dsimp only
      have hgetangle : getAngle s.xy = some θh := by
        have ha : s.hue.angle = getAngle s.xy := fromAngle_angle _
        rw [← ha, hh]
      have hng := getAngle_ne_none hgetangle
      obtain ⟨θ, hang, hθ, hhue, hchroma, hcpos, hbase, hrgbeq, hminv, hmaxv, hvalue⟩ :=
        nongrey_state s hin hng
      have hnc0 : 0 ≤ min 1 (s.chroma + dc) := le_min (by norm_num) (by linarith)
      obtain ⟨hu, hlast⟩ := setFromChroma_inv _ s hin hng hnc0 (min_le_left _ _)
      refine ⟨hu, ?_⟩
      rw [hlast]
      exact hWF
    | none =>
      rw [hh] at hr
      dsimp only at hr
      rcases hWF with hL | ⟨θL, hθL, hL⟩
      · have hLa : s.lastHue.angle = none := by
          rw [hL]
          rfl
        rw [hLa] at hr
        dsimp only at hr
        have hhalf : |(1 / 2 : ℝ)| ≤ π := by
          rw [abs_of_nonneg (by norm_num : (0 : ℝ) ≤ 1 / 2)]
          linarith [Real.pi_gt_three]
        by_cases hval : s.value ≤ 0 ∨ 1 ≤ s.value
        · rw [if_pos hval, Option.map_eq_some'] at hr
          obtain ⟨xy, hxy, hrr⟩ := hr
          obtain ⟨hc0, hc1⟩ := getXYForChroma_bounds hxy
          rw [getXYForChroma_eval _ _ ⟨hc0, hc1⟩, Option.some.injEq] at hxy
          rw [← hxy, getXY_simplest_pair _ hhalf _ hc0 hc1] at hrr
          rw [← hrr]
          unfold setRGB
          dsimp only
          obtain ⟨i, hio, hicases⟩ := fromAngle_io_cases (1 / 2 : ℝ)
          obtain ⟨ho0, ho1⟩ := fromAngle_other_mem _ hhalf
          obtain ⟨hbmin, hbmax, hbval⟩ :=
            pure_comp_facts (fromAngle (some (1 / 2 : ℝ))) i hio hicases ho0 ho1 dc hc0.le
          refine ⟨?_, WFHue_state_hue _⟩
          dsimp only
          split_ifs with hv0
          · dsimp only
            exact inUnit_of_minmax _ (by rw [hbmin]) (by rw [hbmax]; exact hc1)
          · dsimp only
            apply inUnit_of_minmax
            · rw [minC_addGrey, hbmin, hbmax]
              linarith
            · rw [maxC_addGrey]
              linarith
        · exfalso
          push_neg at hval
          rcases hsafe2 hh hLa with hc | hc
          · linarith [hval.1]
          · linarith [hval.2]
      · have hLa : s.lastHue.angle = some θL := by
          rw [hL]
          rfl
        rw [hLa] at hr
        dsimp only at hr
        rw [hL] at hr
        by_cases hval : s.value ≤ 0 ∨ 1 ≤ s.value
        · rw [if_pos hval, Option.map_eq_some'] at hr
          obtain ⟨xy, hxy, hrr⟩ := hr
          obtain ⟨hc0, hc1⟩ := getXYForChroma_bounds hxy
          rw [getXYForChroma_eval _ _ ⟨hc0, hc1⟩, Option.some.injEq] at hxy
          rw [← hxy, getXY_simplest_pair _ hθL _ hc0 hc1] at hrr
          rw [← hrr]
          unfold setRGB
          dsimp only
          obtain ⟨i, hio, hicases⟩ := fromAngle_io_cases θL
          obtain ⟨ho0, ho1⟩ := fromAngle_other_mem _ hθL
          obtain ⟨hbmin, hbmax, hbval⟩ :=
            pure_comp_facts (fromAngle (some θL)) i hio hicases ho0 ho1 dc hc0.le
          refine ⟨?_, WFHue_state_hue _⟩
          dsimp only
          split_ifs with hv0
          · dsimp only
            exact inUnit_of_minmax _ (by rw [hbmin]) (by rw [hbmax]; exact hc1)
          · dsimp only
            apply inUnit_of_minmax
            · rw [minC_addGrey, hbmin, hbmax]
              linarith
            · rw [maxC_addGrey]
              linarith
        · rw [if_neg hval, Option.map_eq_some'] at hr
          push_neg at hval
          obtain ⟨hv0v, hv1v⟩ := hval
          obtain ⟨xy, hxy, hrr⟩ := hr
          obtain ⟨hc0, hc1⟩ := getXYForChroma_bounds hxy
          rw [getXYForChroma_eval _ _ ⟨hc0, hc1⟩, Option.some.injEq] at hxy
          rw [← hxy, getXY_simplest_pair _ hθL _ hc0 hc1] at hrr
          rw [← hrr]
          unfold setRGB
          dsimp only
          obtain ⟨i, hio, hicases⟩ := fromAngle_io_cases θL
          obtain ⟨ho0, ho1⟩ := fromAngle_other_mem _ hθL
          obtain ⟨hbmin, hbmax, hbval⟩ :=
            pure_comp_facts (fromAngle (some θL)) i hio hicases ho0 ho1 _ hc0.le
          set o := (fromAngle (some θL)).other with hodef
          set nc := min dc ((fromAngle (some θL)).maxChromaForValue s.value) with hncdef
          have hncmc : nc ≤ (fromAngle (some θL)).maxChromaForValue s.value := min_le_right _ _
          rw [maxChromaForValue_eq θL hθL s.value, ← hodef] at hncmc
          have h1o : (0 : ℝ) < 1 + o := by linarith
          have h2o : (0 : ℝ) < 2 - o := by linarith
          refine ⟨?_, WFHue_state_hue _⟩
          dsimp only
          apply inUnit_of_minmax
          · rw [minC_addGrey, hbmin, hbval]
            split_ifs at hncmc with hcase
            · have hp : nc * (1 + o) ≤ s.value * 3 / (1 + o) * (1 + o) :=
                mul_le_mul_of_nonneg_right hncmc h1o.le
              have hq : s.value * 3 / (1 + o) * (1 + o) = s.value * 3 :=
                div_mul_cancel₀ _ (ne_of_gt h1o)
              rw [hq] at hp
              linarith
            · have hvb : 1 + o ≤ s.value * 3 := not_lt.mp hcase
              have hp : nc * (2 - o) ≤ 3 * (1 - s.value) / (2 - o) * (2 - o) :=
                mul_le_mul_of_nonneg_right hncmc h2o.le
              have hq : 3 * (1 - s.value) / (2 - o) * (2 - o) = 3 * (1 - s.value) :=
                div_mul_cancel₀ _ (ne_of_gt h2o)
              rw [hq] at hp
              nlinarith
          · rw [maxC_addGrey, hbmax, hbval]
            split_ifs at hncmc with hcase
            · have hp : nc * (2 - o) ≤ 1 * (2 - o) :=
                mul_le_mul_of_nonneg_right hc1 h2o.le
              linarith
            · have hvb : 1 + o ≤ s.value * 3 := not_lt.mp hcase
              have hp : nc * (2 - o) ≤ 3 * (1 - s.value) / (2 - o) * (2 - o) :=
                mul_le_mul_of_nonneg_right hncmc h2o.le
              have hq : 3 * (1 - s.value) / (2 - o) * (2 - o) = 3 * (1 - s.value) :=
                div_mul_cancel₀ _ (ne_of_gt h2o)
              rw [hq] at hp
              linarith

theorem stepOp_inv (s : MState) (op : MOp) (h : Inv s) (hsafe : SafeOp s op) :
    Inv (stepOp s op) := by
  cases op with
  | decrV δ =>
    unfold stepOp applyOp
    dsimp only
    cases hr : decrValue δ s with
    | none => exact h
    | some r =>
      obtain ⟨b, s1⟩ := r
      exact decrValue_inv δ hsafe s h (b, s1) hr
  | incrV δ =>
    unfold stepOp applyOp
    dsimp only
    cases hr : incrValue δ s with
    | none => exact h
    | some r =>
      obtain ⟨b, s1⟩ := r
      exact incrValue_inv δ hsafe s h (b, s1) hr
  | decrC δ =>
    unfold stepOp applyOp
    dsimp only
    cases hr : decrChroma δ s with
    | none => exact h
    | some r =>
      obtain ⟨b, s1⟩ := r
      exact decrChroma_inv δ hsafe s h (b, s1) hr
  | incrC δ =>
    unfold stepOp applyOp
    dsimp only
    cases hr : incrChroma δ s with
    | none => exact h
    | some r =>
      obtain ⟨b, s1⟩ := r
      exact incrChroma_inv δ s h hsafe (b, s1) hr
  | rotH δ =>
    unfold stepOp applyOp
    dsimp only
    cases hr : rotateHue δ s with
    | none => exact h
    | some r =>
      obtain ⟨b, s1⟩ := r
      exact rotateHue_inv δ s h (b, s1) hr

theorem runOps_inv (ops : List MOp) (s : MState) (h : Inv s) (hsafe : SafeTrace s ops) :
    Inv (runOps ops s) := by
  induction ops generalizing s with
  | nil => exact h
  | cons op ops ih =>
    have hstep : Inv (stepOp s op) := stepOp_inv s op h hsafe.1
    exact ih (stepOp s op) hstep hsafe.2

theorem abs_half_le_pi : |(1 / 2 : ℝ)| ≤ π := by
  rw [abs_of_nonneg (by norm_num : (0 : ℝ) ≤ 1 / 2)]
  linarith [Real.pi_gt_three]

theorem fromAngle_half_io : (fromAngle (some (1 / 2 : ℝ))).ioIdx = some (0, 1, 2) := by
  unfold fromAngle fromAngleG
  dsimp only
  rw [abs_of_nonneg (by norm_num : (0 : ℝ) ≤ 1 / 2)]
  rw [if_pos (by linarith [Real.pi_gt_three] : (1 / 2 : ℝ) ≤ π / 3)]
  rw [if_pos (by norm_num : (0 : ℝ) ≤ 1 / 2)]

theorem fromAngle_half_other_eq :
    (fromAngle (some (1 / 2 : ℝ))).other =
      Real.sin (1 / 2) / Real.sin (2 * π / 3 - 1 / 2) := by
  unfold fromAngle fromAngleG
  dsimp only
  rw [abs_of_nonneg (by norm_num : (0 : ℝ) ≤ 1 / 2)]
  rw [if_pos (by linarith [Real.pi_gt_three] : (1 / 2 : ℝ) ≤ π / 3)]
  unfold calcOtherG
  simp only [id_eq, one_mul]

theorem fromAngle_half_other_lt : (fromAngle (some (1 / 2 : ℝ))).other < 1 / 2 := by
  have hs2 : 0 < Real.sin (2 * π / 3 - 1 / 2) := by
    apply Real.sin_pos_of_pos_of_lt_pi
    · linarith [Real.pi_gt_three]
    · linarith [Real.pi_pos]
  rw [fromAngle_half_other_eq, div_lt_iff hs2]
  rw [Real.sin_sub, sin_2pi3, cos_2pi3]
  have hs3pos : (0 : ℝ) < Real.sqrt 3 := by positivity
  have h3 : Real.sqrt 3 * Real.sqrt 3 = 3 := Real.mul_self_sqrt (by norm_num)
  have hkey : Real.sqrt 3 * Real.sin (1 / 2) < Real.cos (1 / 2) := by
    have hcpos : 0 < Real.cos (1 / 2 + π / 3) := by
      apply Real.cos_pos_of_mem_Ioo
      constructor
      · have := Real.pi_pos
        linarith
      · have := Real.pi_gt_three
        linarith
    rw [Real.cos_add, Real.cos_pi_div_three, Real.sin_pi_div_three] at hcpos
    nlinarith [hcpos]
  have h2 : Real.sqrt 3 * (Real.sqrt 3 * Real.sin (1 / 2)) <
      Real.sqrt 3 * Real.cos (1 / 2) := mul_lt_mul_of_pos_left hkey hs3pos
  rw [show Real.sqrt 3 * (Real.sqrt 3 * Real.sin (1 / 2)) = 3 * Real.sin (1 / 2) by
    linear_combination Real.sin (1 / 2) * h3] at h2
  linarith [h2]

theorem incrChroma_mid_grey_eval (g dc : ℝ) (hg0 : 0 < g) (hg1 : g < 1) (hdc : 0 < dc) :
    incrChroma dc (initState ⟨g, g, g⟩) =
      some (true, initState
        ((RGBR.smulC (min dc (min 1 (g * 3 / 1))) (pureRGB (fromAngle (some (1 / 2))))).addGrey
          (g - (RGBR.smulC (min dc (min 1 (g * 3 / 1)))
            (pureRGB (fromAngle (some (1 / 2))))).value))) := by
  set s := initState (⟨g, g, g⟩ : RGBR) with hs
  have hpair : ((fromRGB ⟨g, g, g⟩).1 = 0 ∧ (fromRGB ⟨g, g, g⟩).2 = 0) := by
    unfold fromRGB COS120
    constructor <;> dsimp only <;> ring
  obtain ⟨hhue, hbase, hchroma, hminv, hmaxv, hval, hge1, hge2⟩ := grey_state s hpair
  have hvalg : s.value = g := by
    rw [hval, hs]
    rfl
  have hga : getAngle (fromRGB ⟨g, g, g⟩) = none := by
    unfold getAngle
    rw [if_pos hpair]
  have hlasthue : s.lastHue = fromAngle none := by
    show fromAngle (getAngle (fromRGB ⟨g, g, g⟩)) = fromAngle none
    rw [hga]
  have hlastangle : s.lastHue.angle = none := by
    rw [hlasthue]
    rfl
  have hangle : s.hue.angle = none := by
    rw [hhue]
    rfl
  have hchlt : ¬ 1 ≤ s.chroma := by
    rw [hchroma]
    norm_num
  have hvalcond : ¬ (s.value ≤ 0 ∨ 1 ≤ s.value) := by
    rw [hvalg]
    push_neg
    exact ⟨hg0, hg1⟩
  have hmcval : s.lastHue.maxChromaForValue s.value = min 1 (g * 3 / 1) := by
    rw [hlasthue]
    unfold Hue.maxChromaForValue Hue.maxChromaForTotal fromAngle fromAngleG
    dsimp only
    rw [hvalg]
  have hnc0 : 0 < min dc (min 1 (g * 3 / 1)) := lt_min hdc (lt_min one_pos (by positivity))
  have hnc1 : min dc (min 1 (g * 3 / 1)) ≤ 1 := le_trans (min_le_right _ _) (min_le_left _ _)
  unfold incrChroma
  rw [if_neg hchlt, hangle]
  dsimp only
  rw [if_neg hvalcond, hmcval, hlastangle]
  dsimp only
  rw [getXYForChroma_eval (1 / 2) _ ⟨hnc0, hnc1⟩, Option.map_some']
  rw [getXY_simplest_pair (1 / 2) abs_half_le_pi _ hnc0 hnc1, hvalg]
  rfl

/-- C6: the hue derived from the mid-grey triple `RGB(128,128,128)` is grey
(`is_grey` true, the `NaN` sentinel), and on a manipulator at a mid-grey
colour (all channels equal, value strictly between 0 and 1) whose remembered
last hue is also grey, `incr_chroma(dc)` with `dc > 0` returns `True` and
leaves the cursor at a non-grey colour, the direction being taken from the
arbitrary reference hue `from_angle(0.5)`. -/
theorem claim_C6_grey_sentinel (g dc : ℝ) (hg0 : 0 < g) (hg1 : g < 1) (hdc : 0 < dc) :
    (fromAngle8 (getAngle (fromRGB ⟨128, 128, 128⟩))).isGrey ∧
    (initState ⟨g, g, g⟩).hue.isGrey ∧ (initState ⟨g, g, g⟩).lastHue.isGrey ∧
    ∃ s1, incrChroma dc (initState ⟨g, g, g⟩) = some (true, s1) ∧ ¬ s1.hue.isGrey := by
  have hpair128 : ((fromRGB ⟨128, 128, 128⟩).1 = 0 ∧ (fromRGB ⟨128, 128, 128⟩).2 = 0) := by
    unfold fromRGB COS120
    constructor <;> dsimp only <;> ring
  have hga128 : getAngle (fromRGB ⟨128, 128, 128⟩) = none := by
    unfold getAngle
    rw [if_pos hpair128]
  have hpair : ((fromRGB ⟨g, g, g⟩).1 = 0 ∧ (fromRGB ⟨g, g, g⟩).2 = 0) := by
    unfold fromRGB COS120
    constructor <;> dsimp only <;> ring
  have hga : getAngle (fromRGB ⟨g, g, g⟩) = none := by
    unfold getAngle
    rw [if_pos hpair]
  refine ⟨?_, ?_, ?_, ?_⟩
  · unfold Hue.isGrey
    rw [hga128]
    rfl
  · show (fromAngle (getAngle (fromRGB ⟨g, g, g⟩))).angle = none
    rw [fromAngle_angle, hga]
  · show (fromAngle (getAngle (fromRGB ⟨g, g, g⟩))).angle = none
    rw [fromAngle_angle, hga]
  · refine ⟨_, incrChroma_mid_grey_eval g dc hg0 hg1 hdc, ?_⟩
    have hccpos := fromAngle_cc_pos (1 / 2 : ℝ)
    set nc := min dc (min 1 (g * 3 / 1)) with hnc
    have hnc0 : 0 < nc := lt_min hdc (lt_min one_pos (by positivity))
    set nb := RGBR.smulC nc (pureRGB (fromAngle (some (1 / 2)))) with hnb
    set X := nb.addGrey (g - nb.value) with hX
    have hy : (fromRGB X).2 ≠ 0 := by
      rw [hX, fromRGB_addGrey, hnb, fromRGB_smul]
      rw [fromAngle_pure (1 / 2 : ℝ) abs_half_le_pi]
      dsimp only
      have hsin : 0 < Real.sin (1 / 2) := by
        apply Real.sin_pos_of_pos_of_lt_pi
        · norm_num
        · linarith [Real.pi_gt_three]
      exact ne_of_gt (mul_pos hnc0 (mul_pos (one_div_pos.mpr hccpos) hsin))
    have hgaX : getAngle (fromRGB X) = some (atan2 (fromRGB X).2 (fromRGB X).1) := by
      unfold getAngle
      rw [if_neg (fun hc => hy hc.2)]
    show ¬ (fromAngle (getAngle (fromRGB X))).angle = none
    rw [fromAngle_angle, hgaX]
    exact fun hc => Option.noConfusion hc

theorem claim_C6_grey_sentinel_witness :
    (0 : ℝ) < 1 / 2 ∧ (1 / 2 : ℝ) < 1 ∧ (0 : ℝ) < 1 ∧
    ((fromAngle8 (getAngle (fromRGB ⟨128, 128, 128⟩))).isGrey ∧
      (initState ⟨1 / 2, 1 / 2, 1 / 2⟩).hue.isGrey ∧
      (initState ⟨1 / 2, 1 / 2, 1 / 2⟩).lastHue.isGrey ∧
      ∃ s1, incrChroma 1 (initState ⟨1 / 2, 1 / 2, 1 / 2⟩) = some (true, s1) ∧
        ¬ s1.hue.isGrey) :=
  ⟨by norm_num, by norm_num, by norm_num,
    claim_C6_grey_sentinel (1 / 2) 1 (by norm_num) (by norm_num) (by norm_num)⟩

/-- C10 (amended): for a manipulator initialised from a proportional rgb
with all channels in `[0, 1]`, every sequence of `decr_value`, `incr_value`,
`decr_chroma`, `incr_chroma` and `rotate_hue` calls that is safe in the
state it runs in (nonnegative value/chroma deltas, and `incr_chroma` not
called at a grey colour with value strictly inside `(0, 1)` while the
remembered last hue is also grey) keeps all three internal rgb channels in
`[0, 1]`; consequently `get_rgb()` returns channels within `[0, ONE]` of
every requested precision.  The original unrestricted claim is refuted by
`claim_C10_counterexample`. -/
theorem claim_C10_invariant (ops : List MOp) (c : RGBR) (hin : c.inUnit)
    (hsafe : SafeTrace (initState c) ops) :
    (runOps ops (initState c)).rgb.inUnit ∧
    ∀ t, ((runOps ops (initState c)).getRGB t).inRange t.oneR := by
  have h0 : Inv (initState c) := ⟨hin, WFHue_getAngle (fromRGB c)⟩
  have hfin := runOps_inv ops (initState c) h0 hsafe
  exact ⟨hfin.1, fun t => getRGB_range _ hfin.1 t⟩

theorem claim_C10_invariant_witness :
    (⟨1, 0, 0⟩ : RGBR).inUnit ∧ SafeTrace (initState ⟨1, 0, 0⟩) [MOp.decrV 0] ∧
    ((runOps [MOp.decrV 0] (initState ⟨1, 0, 0⟩)).rgb.inUnit ∧
      ∀ t, ((runOps [MOp.decrV 0] (initState ⟨1, 0, 0⟩)).getRGB t).inRange t.oneR) := by
  have h1 : (⟨1, 0, 0⟩ : RGBR).inUnit := by
    unfold RGBR.inUnit
    norm_num
  have h2 : SafeTrace (initState ⟨1, 0, 0⟩) [MOp.decrV 0] := ⟨le_refl 0, trivial⟩
  exact ⟨h1, h2, claim_C10_invariant [MOp.decrV 0] ⟨1, 0, 0⟩ h1 h2⟩

/-- C10 counterexample: the unrestricted invariant claim fails twice over.
`decr_value(-10)` from rgb `(0.5, 0, 0)` drives the red channel to `10.5`;
and even with nonnegative deltas, `incr_chroma(1)` at mid-grey
`(0.5, 0.5, 0.5)` (grey remembered hue) pushes the dominant channel of the
rebuilt rgb above 1, because `max_chroma_for_value` is computed on the grey
last hue while the chroma is laid out along the reference hue
`from_angle(0.5)`. -/
theorem claim_C10_counterexample :
    (⟨1 / 2, 0, 0⟩ : RGBR).inUnit ∧
    ¬ (runOps [MOp.decrV (-10)] (initState ⟨1 / 2, 0, 0⟩)).rgb.inUnit ∧
    (⟨1 / 2, 1 / 2, 1 / 2⟩ : RGBR).inUnit ∧ MOp.nonnegDelta (MOp.incrC 1) ∧
    ¬ (runOps [MOp.incrC 1] (initState ⟨1 / 2, 1 / 2, 1 / 2⟩)).rgb.inUnit := by
  set s0 := initState (⟨1 / 2, 0, 0⟩ : RGBR) with hs0
  have hv : s0.value = 1 / 6 := by
    show ((1 : ℝ) / 2 + 0 + 0) / 3 = 1 / 6
    norm_num
  have hxy0 : s0.xy = ((1 : ℝ) / 2, (0 : ℝ)) := by
    show fromRGB ⟨1 / 2, 0, 0⟩ = ((1 : ℝ) / 2, (0 : ℝ))
    unfold fromRGB COS120
    refine Prod.ext ?_ ?_ <;> dsimp only <;> ring
  have hbase : s0.baseRGB = ⟨1 / 2, 0, 0⟩ := by
    show getSimplestRGB s0.xy = _
    rw [hxy0]
    unfold getSimplestRGB
    norm_num
  have hminv : s0.minValueHC = 1 / 6 := by
    show s0.baseRGB.value = 1 / 6
    rw [hbase]
    show ((1 : ℝ) / 2 + 0 + 0) / 3 = 1 / 6
    norm_num
  have hmax : max (0 : ℝ) (s0.value - (-10)) = 61 / 6 := by
    rw [hv, max_eq_right (by norm_num : (0 : ℝ) ≤ 1 / 6 - (-10))]
    norm_num
  have hd : decrValue (-10) s0 =
      some (true, setRGB ((⟨1 / 2, 0, 0⟩ : RGBR).addGrey
        (max 0 (s0.value - (-10)) - s0.minValueHC)) s0) := by
    unfold decrValue
    dsimp only
    rw [if_neg (by rw [hv]; norm_num : ¬ s0.value ≤ 0)]
    rw [if_neg (by rw [hmax]; norm_num : ¬ max 0 (s0.value - (-10)) = 0)]
    rw [if_neg (by rw [hmax, hminv]; norm_num : ¬ max 0 (s0.value - (-10)) < s0.minValueHC)]
    rw [hbase]
  refine ⟨?_, ?_, ?_, ?_, ?_⟩
  · unfold RGBR.inUnit
    norm_num
  · intro hc
    have hrun : (runOps [MOp.decrV (-10)] s0).rgb =
        (⟨1 / 2, 0, 0⟩ : RGBR).addGrey (max 0 (s0.value - (-10)) - s0.minValueHC) := by
      show (stepOp s0 (MOp.decrV (-10))).rgb = _
      unfold stepOp applyOp
      dsimp only
      rw [hd]
      rfl
    rw [hrun] at hc
    unfold RGBR.addGrey RGBR.inUnit at hc
    dsimp only at hc
    obtain ⟨h1, h2, hrest⟩ := hc
    rw [hmax, hminv] at h2
    norm_num at h2
  · unfold RGBR.inUnit
    norm_num
  · exact zero_le_one
  · intro hc
    have heval := incrChroma_mid_grey_eval (1 / 2) 1 (by norm_num) (by norm_num) (by norm_num)
    have hrun2 : (runOps [MOp.incrC 1] (initState ⟨1 / 2, 1 / 2, 1 / 2⟩)).rgb =
        (RGBR.smulC (min 1 (min 1 ((1 : ℝ) / 2 * 3 / 1))) (pureRGB (fromAngle (some (1 / 2))))).addGrey
          ((1 : ℝ) / 2 - (RGBR.smulC (min 1 (min 1 ((1 : ℝ) / 2 * 3 / 1)))
            (pureRGB (fromAngle (some (1 / 2))))).value) := by
      show (stepOp _ (MOp.incrC 1)).rgb = _
      unfold stepOp applyOp
      dsimp only
      rw [heval]
      rfl
    rw [hrun2] at hc
    have hncval : min (1 : ℝ) (min 1 ((1 : ℝ) / 2 * 3 / 1)) = 1 := by
      rw [min_eq_left (by norm_num : (1 : ℝ) ≤ 1 / 2 * 3 / 1), min_self]
    have hpure : pureRGB (fromAngle (some ((1 : ℝ) / 2))) =
        ⟨1, (fromAngle (some ((1 : ℝ) / 2))).other, 0⟩ := by
      unfold pureRGB
      rw [fromAngle_half_io]
    rw [hncval, hpure] at hc
    unfold RGBR.smulC RGBR.addGrey RGBR.value RGBR.inUnit at hc
    dsimp only at hc
    obtain ⟨h1, hred, hrest⟩ := hc
    have ho := fromAngle_half_other_lt
    linarith

end EPaint
